import Mathlib

/-!
# Verification of the polyepoxide core (krcz/centrifuge)

A shallow embedding of the polyepoxide core (`polyepoxide-core`): the
content-addressed value model (oxides, cells, bonds), the solvent arena,
the persist routine and the schema-driven sync (`pull`) routine, together
with proofs settling the frozen claims about them.

Modelling conventions:
* A `Key` (CID) is a `Nat`.  In the code a key is the Blake3 hash of the
  canonical DAG-CBOR encoding of a value; here the canonical byte string
  of a blob is represented by its parsed form `CborVal` (the codec is a
  bijection between canonical bytes and these trees), and `hashCbor` is
  the hash function on it.
* Strings occurring in the wire format (field names, enum variant names)
  are represented by numeric codes.
* The 32-byte key of a bond, serialized as a CBOR byte string carrying a
  tag-42 link, is represented by the constructor `CborVal.link`.
* Stores are association lists from keys to blobs; `MemoryStore` is
  infallible, so store operations are total functions.
* Recursions that traverse object graphs through table lookups
  (`persist_value`, `pull_recursive`/`ensure_schema`) are modelled with
  explicit fuel; running out of fuel is a distinguished error, and the
  theorems quantify over runs that do not hit it.
-/

namespace Polyepoxide

/-- A content key (CID): in the code, a 32-byte Blake3 hash. -/
abbrev Key := Nat

/-- Cantor pairing. -/
def npair (a b : Nat) : Nat := (a + b) * (a + b + 1) / 2 + b

/-- Hashes live in a fixed finite range, like the 32-byte Blake3 output
they stand for. -/
def hashMod : Nat := 2 ^ 61 - 1

/-- One mixing step of the model hash. -/
def hpair (a b : Nat) : Nat := npair a b % hashMod

/-- Parsed canonical blob bytes (the DAG-CBOR data model as used by the
code through `ciborium::Value` / `Ipld`): integers, text, links (32-byte
keys under tag 42), lists, maps with arbitrary value keys, and null. -/
inductive CborVal : Type where
  | int (n : Nat)
  | text (n : Nat)
  | link (k : Key)
  | list (xs : List CborVal)
  | cmap (entries : List (CborVal × CborVal))
  | unit

mutual

/-- Hash of a canonical blob: stands for Blake3 over the canonical bytes
(`compute_cid` in `oxide.rs`). -/
def hashCbor : CborVal → Nat
  | .int n => hpair 0 n
  | .text n => hpair 1 n
  | .link k => hpair 2 k
  | .list xs => hpair 3 (hashCborList xs)
  | .cmap es => hpair 4 (hashCborEntries es)
  | .unit => 5

def hashCborList : List CborVal → Nat
  | [] => 0
  | x :: xs => hpair (hashCbor x) (hashCborList xs) + 1

def hashCborEntries : List (CborVal × CborVal) → Nat
  | [] => 0
  | (k, v) :: es => hpair (hpair (hashCbor k) (hashCbor v)) (hashCborEntries es) + 1

end

mutual

/-- All link targets occurring anywhere in a blob.  For a blob produced
by the system's encoders these are exactly the keys reachable from the
blob under its schema (bond targets of value blobs, child structure keys
of schema blobs). -/
def cborLinks : CborVal → List Key
  | .int _ => []
  | .text _ => []
  | .link k => [k]
  | .list xs => cborLinksList xs
  | .cmap es => cborLinksEntries es
  | .unit => []

def cborLinksList : List CborVal → List Key
  | [] => []
  | x :: xs => cborLinks x ++ cborLinksList xs

def cborLinksEntries : List (CborVal × CborVal) → List Key
  | [] => []
  | (k, v) :: es => cborLinks k ++ cborLinks v ++ cborLinksEntries es

end

/-! ## The value universe (model A)

A universal deep embedding of oxide values, used for the solvent, cell
and persist claims.  A value carries the Rust type it inhabits as an
opaque tag `ty` (used by the solvent's type-erased downcasts), an opaque
`payload` standing for all non-bond content, and its ordered `Bond`
fields.  A resolved bond holds the target cell inline: the cell's
lazily-cached key (`Option Key`) and its value; an unresolved bond holds
the expected Rust type of its target (the static parameter `T` of
`Bond<T>`) and the target key. -/

mutual

inductive Val : Type where
  | mk (ty payload : Nat) (bonds : List BondV)

inductive BondV : Type where
  /-- `Bond::Unresolved(cid)` of static type `ty`. -/
  | unresolved (ty : Nat) (k : Key)
  /-- `Bond::Resolved(cell)`: the cell's cached key slot and its value. -/
  | resolved (cached : Option Key) (v : Val)

end

def Val.ty : Val → Nat
  | .mk t _ _ => t

def Val.payload : Val → Nat
  | .mk _ p _ => p

def Val.bonds : Val → List BondV
  | .mk _ _ bs => bs

mutual

/-- Canonical encoding of a value (`Oxide::to_bytes`): the wire format is
schema-less, so the Rust type tag is not part of the bytes; each bond
field is encoded as just its key (a link), exactly as
`Bond::serialize` emits `self.cid()`. -/
def encodeVal : Val → CborVal
  | .mk _ payload bonds => .list [.int payload, .list (encodeBonds bonds)]

def encodeBonds : List BondV → List CborVal
  | [] => []
  | b :: bs => .link (BondV.cid b) :: encodeBonds bs

/-- `Bond::cid`: the stored key when unresolved, the cell's key when
resolved (`Cell::cid` = the cached slot if set, else the hash of the
value's encoding). -/
def BondV.cid : BondV → Key
  | .unresolved _ k => k
  | .resolved cached v =>
    match cached with
    | some k => k
    | none => hashCbor (encodeVal v)

end

/-- `Oxide::compute_cid`: hash of the canonical encoding. -/
def Val.computeCid (v : Val) : Key := hashCbor (encodeVal v)

/-- Serialization of a bond on its own (`Bond::serialize`): always emits
just the key, as a link. -/
def BondV.serialize (b : BondV) : CborVal := .link b.cid

/-- Deserialization of a bond (`Bond::deserialize`): reads a key and
always produces the `Unresolved` state (at the expected static type
`ty`). -/
def BondV.deserialize (ty : Nat) : CborVal → Option BondV
  | .link k => some (.unresolved ty k)
  | _ => none

/-- Replace every bond of a value (recursively) by the `Unresolved` bond
carrying the same key: the "unresolve" direction of ref transparency. -/
def Val.unresolveAll : Val → Val
  | .mk ty payload bonds => .mk ty payload (unresolveBonds bonds)
where
  unresolveBonds : List BondV → List BondV
    | [] => []
    | b :: bs => .unresolved 0 b.cid :: unresolveBonds bs

/-! ## Solvent (model of `solvent.rs`)

The solvent is `HashMap<Cid, Arc<dyn Any>>`; here an association list
from keys to type-erased cells.  An interned cell records the Rust type
tag of the `Cell<T>` it erases (`downcast` succeeds exactly on matching
tags), the key it was interned under (`Cell::with_cid`), the value, and
a unique allocation id standing for the `Arc` pointer: two cells are
"the same Arc" iff they are equal records (same id). -/

structure SCell where
  id : Nat
  ty : Nat
  cid : Key
  val : Val

structure Solvent where
  cells : List (Key × SCell)
  next : Nat

def Solvent.empty : Solvent := ⟨[], 0⟩

def lookupKey : List (Key × SCell) → Key → Option SCell
  | [], _ => none
  | (k', c) :: rest, k => if k' = k then some c else lookupKey rest k

/-- `HashMap::insert`: replaces the entry at `k` if present, otherwise
adds one. -/
def insertEntry : List (Key × SCell) → Key → SCell → List (Key × SCell)
  | [], k, c => [(k, c)]
  | (k', c') :: rest, k, c =>
    if k' = k then (k, c) :: rest else (k', c') :: insertEntry rest k c

mutual

/-- `Solvent::add`: compute the cid; if a cell of the expected type is
already interned there, return it; otherwise (absent, or present under a
different type — "we handle it by inserting the new value anyway")
rewrite the value through `SolventBondMapper` and insert a fresh cell
under the cid. -/
def Solvent.add (v : Val) (s : Solvent) : SCell × Solvent :=
  match v with
  | .mk ty payload bonds =>
    let k := Val.computeCid (.mk ty payload bonds)
    match lookupKey s.cells k with
    | some c =>
      if c.ty = ty then (c, s)
      else
        let (bs, s') := Solvent.mapBondsList bonds s
        let c' : SCell := ⟨s'.next, ty, k, .mk ty payload bs⟩
        (c', ⟨insertEntry s'.cells k c', s'.next + 1⟩)
    | none =>
      let (bs, s') := Solvent.mapBondsList bonds s
      let c' : SCell := ⟨s'.next, ty, k, .mk ty payload bs⟩
      (c', ⟨insertEntry s'.cells k c', s'.next + 1⟩)

/-- `map_bonds` of the value being added, threading the solvent. -/
def Solvent.mapBondsList (bs : List BondV) (s : Solvent) : List BondV × Solvent :=
  match bs with
  | [] => ([], s)
  | b :: rest =>
    let (b', s') := Solvent.mapBond b s
    let (rest', s'') := Solvent.mapBondsList rest s'
    (b' :: rest', s'')

/-- `SolventBondMapper::map_bond`: an unresolved bond is upgraded to a
resolved one when its key is interned under the expected type (else kept
unresolved); a resolved bond has its target value recursively added and
is re-bound to the interned cell. -/
def Solvent.mapBond (b : BondV) (s : Solvent) : BondV × Solvent :=
  match b with
  | .unresolved ty k =>
    match lookupKey s.cells k with
    | some c =>
      if c.ty = ty then (.resolved (some k) c.val, s) else (.unresolved ty k, s)
    | none => (.unresolved ty k, s)
  | .resolved _cached tv =>
    let (c, s') := Solvent.add tv s
    (.resolved (some c.cid) c.val, s')

end

/-- `Solvent::get::<T>`: lookup plus downcast. -/
def Solvent.get (s : Solvent) (ty : Nat) (k : Key) : Option SCell :=
  match lookupKey s.cells k with
  | some c => if c.ty = ty then some c else none
  | none => none

/-- `Solvent::contains`. -/
def Solvent.contains (s : Solvent) (k : Key) : Bool := (lookupKey s.cells k).isSome

/-- `Solvent::len`. -/
def Solvent.len (s : Solvent) : Nat := s.cells.length

/-- `Solvent::bond` (= `add_and_bond`): add and wrap in a resolved bond
to the interned cell. -/
def Solvent.bond (v : Val) (s : Solvent) : BondV × Solvent :=
  let (c, s') := Solvent.add v s
  (.resolved (some c.cid) c.val, s')

mutual

/-- The values `Solvent::add` interns when given `v`: `v` itself plus,
recursively, the targets of its resolved bonds. -/
def closureVals : Val → List Val
  | .mk ty p bonds => .mk ty p bonds :: closureValsBonds bonds

def closureValsBonds : List BondV → List Val
  | [] => []
  | .unresolved _ _ :: bs => closureValsBonds bs
  | .resolved _ tv :: bs => closureVals tv ++ closureValsBonds bs

end

/-- The keys `Solvent::add` may intern when given `v`. -/
def closureKeys (v : Val) : List Key := (closureVals v).map Val.computeCid

/-- Induction on values following the bond-target structure: to prove
`P v` for all values it suffices to prove it for `Val.mk ty p bonds`
assuming it for every resolved bond target in `bonds`. -/
theorem Val.valInduction {P : Val → Prop}
    (h : ∀ ty p bonds,
      (∀ cached tv, BondV.resolved cached tv ∈ bonds → P tv) → P (.mk ty p bonds)) :
    ∀ v, P v := by
  have key : ∀ n v, sizeOf v < n → P v := by
    intro n
    induction n with
    | zero => intro v hv; omega
    | succ n ih =>
      intro v hv
      obtain ⟨ty, p, bonds⟩ := v
      apply h
      intro cached tv htv
      apply ih
      have h1 : sizeOf (BondV.resolved cached tv) < sizeOf bonds :=
        List.sizeOf_lt_of_mem htv
      have h2 : sizeOf tv < sizeOf (BondV.resolved cached tv) := by
        simp only [BondV.resolved.sizeOf_spec]
        omega
      have h3 : sizeOf bonds < sizeOf (Val.mk ty p bonds) := by
        simp only [Val.mk.sizeOf_spec]
        omega
      omega
  intro v
  exact key (sizeOf v + 1) v (by omega)

theorem lookupKey_insertEntry_self (cells : List (Key × SCell)) (k : Key) (c : SCell) :
    lookupKey (insertEntry cells k c) k = some c := by
  induction cells with
  | nil => simp [insertEntry, lookupKey]
  | cons e rest ih =>
    obtain ⟨k', c'⟩ := e
    by_cases hk : k' = k
    · simp [insertEntry, lookupKey, hk]
    · simp [insertEntry, lookupKey, hk, ih]

theorem lookupKey_insertEntry_ne (cells : List (Key × SCell)) (k k' : Key) (c : SCell)
    (h : k' ≠ k) : lookupKey (insertEntry cells k c) k' = lookupKey cells k' := by
  induction cells with
  | nil =>
    simp only [insertEntry, lookupKey]
    rw [if_neg (fun hh => h hh.symm)]
  | cons e rest ih =>
    obtain ⟨k0, c0⟩ := e
    by_cases hk : k0 = k
    · subst hk
      simp only [insertEntry, if_pos rfl, lookupKey]
      rw [if_neg (fun hh => h hh.symm), if_neg (fun hh => h hh.symm)]
    · simp only [insertEntry, if_neg hk, lookupKey]
      by_cases hk0 : k0 = k'
      · simp [hk0]
      · rw [if_neg (fun hh => hk0 hh), if_neg (fun hh => hk0 hh), ih]

theorem insertEntry_keys_subset (cells : List (Key × SCell)) (k : Key) (c : SCell) :
    (insertEntry cells k c).map Prod.fst ⊆ k :: cells.map Prod.fst := by
  induction cells with
  | nil => simp [insertEntry]
  | cons e rest ih =>
    obtain ⟨k0, c0⟩ := e
    by_cases hk : k0 = k
    · subst hk
      intro a ha
      simp only [insertEntry, if_true] at ha
      simp only [List.map_cons, List.mem_cons] at ha ⊢
      tauto
    · simp only [insertEntry, if_neg hk, List.map_cons]
      intro a ha
      simp only [List.mem_cons] at ha ⊢
      rcases ha with h1 | h2
      · tauto
      · have := ih h2
        simp only [List.mem_cons] at this
        tauto

theorem insertEntry_nodup (cells : List (Key × SCell)) (k : Key) (c : SCell)
    (h : (cells.map Prod.fst).Nodup) : ((insertEntry cells k c).map Prod.fst).Nodup := by
  induction cells with
  | nil => simp [insertEntry]
  | cons e rest ih =>
    obtain ⟨k0, c0⟩ := e
    simp only [List.map_cons, List.nodup_cons] at h
    by_cases hk : k0 = k
    · subst hk
      simpa [insertEntry, List.nodup_cons] using h
    · simp only [insertEntry, if_neg hk, List.map_cons, List.nodup_cons]
      refine ⟨fun hmem => ?_, ih h.2⟩
      have hsub := insertEntry_keys_subset rest k c hmem
      rcases List.mem_cons.mp hsub with h1 | h2
      · exact hk h1
      · exact h.1 h2

theorem insertEntry_length_ge (cells : List (Key × SCell)) (k : Key) (c : SCell) :
    cells.length ≤ (insertEntry cells k c).length := by
  induction cells with
  | nil => simp [insertEntry]
  | cons e rest ih =>
    obtain ⟨k0, c0⟩ := e
    by_cases hk : k0 = k <;> simp [insertEntry, hk]
    all_goals omega

/-- Postcondition of `Solvent::add`: the returned cell is interned under
the value's cid and carries the value's type tag. -/
theorem Solvent.add_lookup (v : Val) (s : Solvent) :
    lookupKey (Solvent.add v s).2.cells v.computeCid = some (Solvent.add v s).1 ∧
    (Solvent.add v s).1.ty = v.ty := by
  obtain ⟨ty, p, bonds⟩ := v
  show lookupKey (Solvent.add (Val.mk ty p bonds) s).2.cells
      (Val.computeCid (Val.mk ty p bonds)) = _ ∧ _
  rw [Solvent.add]
  cases hl : lookupKey s.cells (Val.computeCid (Val.mk ty p bonds)) with
  | some c =>
    by_cases hty : c.ty = ty
    · simp [hl, hty, Val.ty]
    · simp [hl, hty, Val.ty, lookupKey_insertEntry_self]
  | none => simp [hl, Val.ty, lookupKey_insertEntry_self]

def solventKeys (s : Solvent) : List Key := s.cells.map Prod.fst

/-- Postconditions shared by every solvent-mutating step of `add`:
keys grow only within `ks`, nodup keys are preserved, the length never
shrinks, present keys stay present, and an entry of type `T` at key `k`
is untouched as long as no value in `us` collides at `k` with a
different type. -/
def PreservesSolvent (f : Solvent → Solvent) (ks : List Key) (us : List Val) : Prop :=
  ∀ s : Solvent,
    solventKeys (f s) ⊆ solventKeys s ++ ks ∧
    ((solventKeys s).Nodup → (solventKeys (f s)).Nodup) ∧
    s.cells.length ≤ (f s).cells.length ∧
    (∀ k, (lookupKey s.cells k).isSome → (lookupKey (f s).cells k).isSome) ∧
    (∀ T k c0, lookupKey s.cells k = some c0 → c0.ty = T →
      (∀ u ∈ us, u.computeCid = k → u.ty = T) →
      lookupKey (f s).cells k = some c0)

theorem PreservesSolvent.id : PreservesSolvent (fun s => s) [] [] := by
  intro s
  refine ⟨by simp, fun h => h, le_refl _, fun k h => h, fun T k c0 h1 h2 _ => h1⟩

theorem PreservesSolvent.comp {f g : Solvent → Solvent} {ks1 ks2 : List Key}
    {us1 us2 : List Val} (hf : PreservesSolvent f ks1 us1)
    (hg : PreservesSolvent g ks2 us2) :
    PreservesSolvent (fun s => g (f s)) (ks1 ++ ks2) (us1 ++ us2) := by
  intro s
  obtain ⟨f1, f2, f3, f4, f5⟩ := hf s
  obtain ⟨g1, g2, g3, g4, g5⟩ := hg (f s)
  refine ⟨?_, fun h => g2 (f2 h), le_trans f3 g3, fun k h => g4 k (f4 k h), ?_⟩
  · intro a ha
    have := g1 ha
    rw [List.mem_append] at this
    rcases this with h1 | h2
    · have := f1 h1
      rw [List.mem_append] at this
      simp only [List.mem_append]
      tauto
    · simp only [List.mem_append]
      tauto
  · intro T k c0 h1 h2 h3
    refine g5 T k c0 (f5 T k c0 h1 h2 ?_) h2 ?_
    · intro u hu
      exact h3 u (List.mem_append.mpr (Or.inl hu))
    · intro u hu
      exact h3 u (List.mem_append.mpr (Or.inr hu))

/-- A `PreservesSolvent` certificate may weaken to larger key and value
lists. -/
theorem PreservesSolvent.weaken {f : Solvent → Solvent} {ks1 ks2 : List Key}
    {us1 us2 : List Val} (hf : PreservesSolvent f ks1 us1)
    (hks : ks1 ⊆ ks2) (hus : us1 ⊆ us2) : PreservesSolvent f ks2 us2 := by
  intro s
  obtain ⟨f1, f2, f3, f4, f5⟩ := hf s
  refine ⟨?_, f2, f3, f4, ?_⟩
  · intro a ha
    have := f1 ha
    rw [List.mem_append] at this ⊢
    rcases this with h1 | h2
    · tauto
    · exact Or.inr (hks h2)
  · intro T k c0 h1 h2 h3
    exact f5 T k c0 h1 h2 (fun u hu => h3 u (hus hu))

/-- `SolventBondMapper` on a whole bond list satisfies the preservation
postconditions, given them for each resolved target (the member
induction hypothesis supplied by `Val.valInduction`). -/
theorem Solvent.mapBondsList_preserves (bs : List BondV)
    (IH : ∀ cached tv, BondV.resolved cached tv ∈ bs →
      PreservesSolvent (fun s => (Solvent.add tv s).2) (closureKeys tv) (closureVals tv)) :
    PreservesSolvent (fun s => (Solvent.mapBondsList bs s).2)
      ((closureValsBonds bs).map Val.computeCid) (closureValsBonds bs) := by
  induction bs with
  | nil =>
    have h0 := PreservesSolvent.id
    intro s
    simpa [Solvent.mapBondsList, closureValsBonds] using h0 s
  | cons b rest ih =>
    have hrest : PreservesSolvent (fun s => (Solvent.mapBondsList rest s).2)
        ((closureValsBonds rest).map Val.computeCid) (closureValsBonds rest) :=
      ih (fun cached tv htv => IH cached tv (List.mem_cons_of_mem _ htv))
    cases b with
    | unresolved ty k =>
      intro s
      have step : (Solvent.mapBondsList (BondV.unresolved ty k :: rest) s).2 =
          (Solvent.mapBondsList rest (Solvent.mapBond (BondV.unresolved ty k) s).2).2 := by
        simp [Solvent.mapBondsList]
      have hb : (Solvent.mapBond (BondV.unresolved ty k) s).2 = s := by
        rw [Solvent.mapBond]
        cases hl : lookupKey s.cells k with
        | some c => by_cases hty : c.ty = ty <;> simp [hl, hty]
        | none => simp [hl]
      simp only [step, hb]
      have := hrest s
      simpa [closureValsBonds] using this
    | resolved cached tv =>
      have hadd := IH cached tv (List.mem_cons_self _ _)
      intro s
      have step : (Solvent.mapBondsList (BondV.resolved cached tv :: rest) s).2 =
          (Solvent.mapBondsList rest (Solvent.add tv s).2).2 := by
        simp [Solvent.mapBondsList, Solvent.mapBond]
      have hcomp := (hadd.comp hrest) s
      simp only [step]
      simpa [closureValsBonds, closureKeys] using hcomp

/-- `Solvent::add` satisfies the preservation postconditions. -/
theorem Solvent.add_preserves (v : Val) :
    PreservesSolvent (fun s => (Solvent.add v s).2) (closureKeys v) (closureVals v) := by
  induction v using Val.valInduction with
  | _ ty p bonds IH =>
  have hmap := Solvent.mapBondsList_preserves bonds
    (fun cached tv htv => IH cached tv htv)
  intro s
  obtain ⟨m1, m2, m3, m4, m5⟩ := hmap s
  simp only [Solvent.add]
  cases hl : lookupKey s.cells (Val.computeCid (Val.mk ty p bonds)) with
  | some c =>
    by_cases hty : c.ty = ty
    · simp only [hl, hty, if_pos rfl]
      exact (PreservesSolvent.id.weaken (by simp) (by simp)) s
    · simp only [hl, if_neg hty]
      refine ⟨?_, ?_, ?_, ?_, ?_⟩
      · intro a ha
        have h1 := insertEntry_keys_subset (Solvent.mapBondsList bonds s).2.cells
          (Val.computeCid (Val.mk ty p bonds)) _ ha
        rcases List.mem_cons.mp h1 with h2 | h3
        · subst h2
          simp [closureKeys, closureVals]
        · have := m1 h3
          rw [List.mem_append] at this
          rcases this with h4 | h5
          · exact List.mem_append.mpr (Or.inl h4)
          · refine List.mem_append.mpr (Or.inr ?_)
            simp only [closureKeys, closureVals]
            simp only [List.map_cons, List.mem_cons]
            exact Or.inr h5
      · intro hnd
        exact insertEntry_nodup _ _ _ (m2 hnd)
      · exact le_trans m3 (insertEntry_length_ge _ _ _)
      · intro k hk
        have h1 := m4 k hk
        by_cases hkk : k = Val.computeCid (Val.mk ty p bonds)
        · subst hkk
          simp [lookupKey_insertEntry_self]
        · rw [lookupKey_insertEntry_ne _ _ _ _ hkk]
          exact h1
      · intro T k c0 h1 h2 h3
        by_cases hkk : k = Val.computeCid (Val.mk ty p bonds)
        · exfalso
          subst hkk
          rw [hl] at h1
          have : c.ty = T := by
            injection h1 with h1'
            rw [h1']
            exact h2
          have hvty : (Val.mk ty p bonds).ty = T :=
            h3 _ (by simp [closureVals]) rfl
          simp only [Val.ty] at hvty
          exact hty (by rw [this, ← hvty])
        · rw [lookupKey_insertEntry_ne _ _ _ _ hkk]
          refine m5 T k c0 h1 h2 ?_
          intro u hu
          refine h3 u ?_
          simp only [closureVals, List.mem_cons]
          exact Or.inr hu
  | none =>
    simp only [hl]
    refine ⟨?_, ?_, ?_, ?_, ?_⟩
    · intro a ha
      have h1 := insertEntry_keys_subset (Solvent.mapBondsList bonds s).2.cells
        (Val.computeCid (Val.mk ty p bonds)) _ ha
      rcases List.mem_cons.mp h1 with h2 | h3
      · subst h2
        simp [closureKeys, closureVals]
      · have := m1 h3
        rw [List.mem_append] at this
        rcases this with h4 | h5
        · exact List.mem_append.mpr (Or.inl h4)
        · refine List.mem_append.mpr (Or.inr ?_)
          simp only [closureKeys, closureVals]
          simp only [List.map_cons, List.mem_cons]
          exact Or.inr h5
    · intro hnd
      exact insertEntry_nodup _ _ _ (m2 hnd)
    · exact le_trans m3 (insertEntry_length_ge _ _ _)
    · intro k hk
      by_cases hkk : k = Val.computeCid (Val.mk ty p bonds)
      · subst hkk
        simp [lookupKey_insertEntry_self]
      · rw [lookupKey_insertEntry_ne _ _ _ _ hkk]
        exact m4 k hk
    · intro T k c0 h1 h2 h3
      by_cases hkk : k = Val.computeCid (Val.mk ty p bonds)
      · exfalso
        subst hkk
        rw [hl] at h1
        exact Option.noConfusion h1
      · rw [lookupKey_insertEntry_ne _ _ _ _ hkk]
        refine m5 T k c0 h1 h2 ?_
        intro u hu
        refine h3 u ?_
        simp only [closureVals, List.mem_cons]
        exact Or.inr hu

/-- A sequence of `Solvent::add` calls (`Solvent::bond` is `add` plus
wrapping, so sequences of `bond` calls are covered as well). -/
def Solvent.addAll (vs : List Val) (s : Solvent) : Solvent :=
  vs.foldl (fun s v => (Solvent.add v s).2) s

theorem addAll_keys_subset (vs : List Val) (s : Solvent) :
    solventKeys (Solvent.addAll vs s) ⊆ solventKeys s ++ vs.flatMap closureKeys := by
  induction vs generalizing s with
  | nil => simp [Solvent.addAll]
  | cons v vs ih =>
    intro a ha
    simp only [Solvent.addAll, List.foldl_cons] at ha
    have h1 := ih ((Solvent.add v s).2) ha
    rw [List.mem_append] at h1
    rcases h1 with h2 | h3
    · have := (Solvent.add_preserves v s).1 h2
      rw [List.mem_append] at this
      simp only [List.mem_append, List.flatMap_cons]
      tauto
    · simp only [List.mem_append, List.flatMap_cons]
      tauto

theorem addAll_nodup (vs : List Val) (s : Solvent) (h : (solventKeys s).Nodup) :
    (solventKeys (Solvent.addAll vs s)).Nodup := by
  induction vs generalizing s with
  | nil => simpa [Solvent.addAll] using h
  | cons v vs ih =>
    simp only [Solvent.addAll, List.foldl_cons]
    exact ih _ ((Solvent.add_preserves v s).2.1 h)

theorem nodup_subset_length {l' l f : List Key} (hnd : l'.Nodup) (hsub : l' ⊆ l ++ f) :
    l'.length ≤ l.length + f.dedup.length := by
  have h1 : l'.toFinset.card = l'.length := by
    rw [List.card_toFinset, List.dedup_eq_self.mpr hnd]
  have h2 : l'.toFinset ⊆ l.toFinset ∪ f.toFinset := by
    intro a ha
    rw [List.mem_toFinset] at ha
    have := hsub ha
    rw [List.mem_append] at this
    rw [Finset.mem_union, List.mem_toFinset, List.mem_toFinset]
    exact this
  calc l'.length = l'.toFinset.card := h1.symm
    _ ≤ (l.toFinset ∪ f.toFinset).card := Finset.card_le_card h2
    _ ≤ l.toFinset.card + f.toFinset.card := Finset.card_union_le _ _
    _ ≤ l.length + f.dedup.length := by
        have := List.toFinset_card_le l
        rw [List.card_toFinset f]
        omega

/-! ## Claims C2 and C9 -/

/-- **C2**: solvent deduplication.  For values of the same oxide type
with equal computed keys, `add(v₁); add(v₂)` returns the identical cell
(the very same interned record, i.e. the same `Arc`) and the second
`add` leaves the solvent untouched; and across any sequence of `add`
calls, starting from any solvent with distinct keys, the length grows by
at most one per distinct key recursively interned. -/
theorem solvent_add_dedup :
    (∀ (s : Solvent) (v1 v2 : Val), v1.ty = v2.ty → v1.computeCid = v2.computeCid →
      (Solvent.add v2 (Solvent.add v1 s).2).1 = (Solvent.add v1 s).1 ∧
      (Solvent.add v2 (Solvent.add v1 s).2).2 = (Solvent.add v1 s).2) ∧
    (∀ (vs : List Val) (s : Solvent), (solventKeys s).Nodup →
      (Solvent.addAll vs s).len ≤ s.len + (vs.flatMap closureKeys).dedup.length) := by
  constructor
  · intro s v1 v2 hty hkey
    obtain ⟨hlook, hty1⟩ := Solvent.add_lookup v1 s
    obtain ⟨ty2, p2, bonds2⟩ := v2
    have hkey' : Val.computeCid (Val.mk ty2 p2 bonds2) = v1.computeCid := hkey.symm
    have htyc : (Solvent.add v1 s).1.ty = ty2 := by
      rw [hty1, hty]
      rfl
    rw [Solvent.add, hkey']
    simp only [hlook]
    rw [if_pos htyc]
    exact ⟨rfl, rfl⟩
  · intro vs s hnd
    have hsub := addAll_keys_subset vs s
    have hnd' := addAll_nodup vs s hnd
    have := nodup_subset_length hnd' hsub
    simpa [Solvent.len, solventKeys] using this

/-- Witness for C2 at concrete inputs. -/
theorem solvent_add_dedup_witness :
    ((Val.mk 0 7 []).ty = (Val.mk 0 7 []).ty ∧
      (Val.mk 0 7 []).computeCid = (Val.mk 0 7 []).computeCid) ∧
    (Solvent.add (Val.mk 0 7 []) (Solvent.add (Val.mk 0 7 []) Solvent.empty).2).1 =
      (Solvent.add (Val.mk 0 7 []) Solvent.empty).1 ∧
    (Solvent.addAll [Val.mk 0 7 [], Val.mk 0 7 []] Solvent.empty).len ≤
      Solvent.empty.len + ([Val.mk 0 7 [], Val.mk 0 7 []].flatMap closureKeys).dedup.length :=
  ⟨⟨rfl, rfl⟩,
   (solvent_add_dedup.1 Solvent.empty (Val.mk 0 7 []) (Val.mk 0 7 []) rfl rfl).1,
   solvent_add_dedup.2 [Val.mk 0 7 [], Val.mk 0 7 []] Solvent.empty
     (by simp [solventKeys, Solvent.empty])⟩

/-- Counterexample to **C9** as stated: the wire format carries no type
information, so a value of a different oxide type can have the same
computed key; `Solvent::add` then fails the downcast and — per the code
comment "we handle it by inserting the new value anyway" — replaces the
entry, after which the original typed lookup `get::<T>(k)` no longer
returns the interned cell. -/
theorem solvent_entry_replaced_counterexample :
    Solvent.get (Solvent.add (Val.mk 0 5 []) Solvent.empty).2 0
      (Val.mk 0 5 []).computeCid =
      some (Solvent.add (Val.mk 0 5 []) Solvent.empty).1 ∧
    (Val.mk 1 5 []).computeCid = (Val.mk 0 5 []).computeCid ∧
    Solvent.get
      (Solvent.add (Val.mk 1 5 []) (Solvent.add (Val.mk 0 5 []) Solvent.empty).2).2 0
      (Val.mk 0 5 []).computeCid = none := by
  refine ⟨rfl, rfl, rfl⟩

/-- **C9 (amended)**: solvent entries are never *removed* — `contains`
stays true and `len` never decreases across any sequence of `add`/`bond`
calls — and a typed entry survives verbatim (same cell) as long as no
later added value (or recursively interned sub-value) of a *different*
type collides on its key; an add of a different type under the same key
replaces the entry instead. -/
theorem solvent_entries_never_removed_amended :
    (∀ (ops : List Val) (s : Solvent) (T : Nat) (k : Key) (c : SCell),
      Solvent.get s T k = some c →
      (∀ v ∈ ops, ∀ u ∈ closureVals v, u.computeCid = k → u.ty = T) →
      Solvent.get (Solvent.addAll ops s) T k = some c) ∧
    (∀ (ops : List Val) (s : Solvent) (k : Key),
      Solvent.contains s k = true → Solvent.contains (Solvent.addAll ops s) k = true) ∧
    (∀ (ops : List Val) (s : Solvent), s.len ≤ (Solvent.addAll ops s).len) := by
  refine ⟨?_, ?_, ?_⟩
  · intro ops
    induction ops with
    | nil => intro s T k c h1 _; simpa [Solvent.addAll] using h1
    | cons v vs ih =>
      intro s T k c h1 h2
      simp only [Solvent.addAll, List.foldl_cons]
      have hget : Solvent.get (Solvent.add v s).2 T k = some c := by
        simp only [Solvent.get] at h1 ⊢
        cases hl : lookupKey s.cells k with
        | none =>
          simp only [hl] at h1
          exact Option.noConfusion h1
        | some c0 =>
          simp only [hl] at h1
          by_cases hty : c0.ty = T
          · rw [if_pos hty] at h1
            injection h1 with h1'
            subst h1'
            have := (Solvent.add_preserves v s).2.2.2.2 T k c0 hl hty
              (fun u hu => h2 v (List.mem_cons_self _ _) u hu)
            simp only [this]
            rw [if_pos hty]
          · rw [if_neg hty] at h1
            exact Option.noConfusion h1
      exact ih _ T k c hget (fun v' hv' => h2 v' (List.mem_cons_of_mem _ hv'))
  · intro ops
    induction ops with
    | nil => intro s k h; simpa [Solvent.addAll] using h
    | cons v vs ih =>
      intro s k h
      simp only [Solvent.addAll, List.foldl_cons]
      refine ih _ k ?_
      simp only [Solvent.contains] at h ⊢
      exact (Solvent.add_preserves v s).2.2.2.1 k h
  · intro ops
    induction ops with
    | nil => intro s; simp [Solvent.addAll]
    | cons v vs ih =>
      intro s
      simp only [Solvent.addAll, List.foldl_cons]
      exact le_trans ((Solvent.add_preserves v s).2.2.1) (ih _)

/-- Witness for the amended C9 at concrete inputs. -/
theorem solvent_entries_never_removed_amended_witness :
    Solvent.get (Solvent.add (Val.mk 0 5 []) Solvent.empty).2 0
        (Val.mk 0 5 []).computeCid =
      some (Solvent.add (Val.mk 0 5 []) Solvent.empty).1 ∧
    Solvent.get
        (Solvent.addAll [Val.mk 0 6 []] (Solvent.add (Val.mk 0 5 []) Solvent.empty).2) 0
        (Val.mk 0 5 []).computeCid =
      some (Solvent.add (Val.mk 0 5 []) Solvent.empty).1 :=
  ⟨rfl,
   solvent_entries_never_removed_amended.1 [Val.mk 0 6 []] _ 0 _ _ rfl
     (by intro v hv u hu hk; simp at hv; subst hv; simp [closureVals, closureValsBonds] at hu; subst hu; rfl)⟩

/-! ## Cell (model of `cell.rs`)

A `Cell` owns a value and a write-once `OnceLock` slot for the key.
`cid()` initializes the slot from `compute_cid` on first call; a cell
built by `with_cid` has the slot already set.  `cidCall` models one call
to `Cell::cid`: it returns the key together with the (possibly updated)
cell. -/

structure CellSt where
  value : Val
  slot : Option Key

namespace CellSt

/-- `Cell::new`: slot left empty. -/
def new (v : Val) : CellSt := ⟨v, none⟩

/-- `Cell::with_cid`: slot pre-set to the supplied key, unvalidated. -/
def with_cid (v : Val) (k : Key) : CellSt := ⟨v, some k⟩

/-- One call to `Cell::cid`: `get_or_init(|| value.compute_cid())`. -/
def cidCall (c : CellSt) : Key × CellSt :=
  match c.slot with
  | some k => (k, c)
  | none =>
    let k := c.value.computeCid
    (k, ⟨c.value, some k⟩)

end CellSt

/-! ## Schema structures (model of `schema.rs`)

`Structure` mirrors the Rust enum; nested structures are held through
`Bond<Structure>` (`SBond` here, with the cell inlined as in `BondV`).
Variant names, record field names and enum variant names are numeric
codes; the struct-variant field names `key`/`value` of `Map`/`OrderedMap`
are the codes 100/101. -/

mutual

inductive Structure : Type where
  | bool
  | char
  | unicode
  | byteString
  | int (t : Nat)
  | float (t : Nat)
  | unit
  | sequence (inner : SBond)
  | tuple (elems : List SBond)
  | record (fields : List (Nat × SBond))
  | tagged (variants : List (Nat × SBond))
  | enum (names : List Nat)
  | map (key value : SBond)
  | orderedMap (key value : SBond)
  | bond (inner : SBond)
  | selfRef (n : Nat)

inductive SBond : Type where
  | unresolved (k : Key)
  | resolved (cached : Option Key) (s : Structure)

end

mutual

/-- Canonical encoding of a `Structure` (serde/DAG-CBOR derive): unit
variants encode as their name, payload variants as a single-entry map
from the name to the payload; a `Bond<Structure>` encodes as its key. -/
def encodeS : Structure → CborVal
  | .bool => .text 0
  | .char => .text 1
  | .unicode => .text 2
  | .byteString => .text 3
  | .int t => .cmap [(.text 4, .text t)]
  | .float t => .cmap [(.text 5, .text t)]
  | .unit => .text 6
  | .sequence b => .cmap [(.text 7, .link (SBond.cid b))]
  | .tuple bs => .cmap [(.text 8, .list (encodeSBondList bs))]
  | .record fs => .cmap [(.text 9, .cmap (encodeFieldList fs))]
  | .tagged fs => .cmap [(.text 10, .cmap (encodeFieldList fs))]
  | .enum ns => .cmap [(.text 11, .list (encodeNameList ns))]
  | .map k v =>
    .cmap [(.text 12, .cmap [(.text 100, .link (SBond.cid k)), (.text 101, .link (SBond.cid v))])]
  | .orderedMap k v =>
    .cmap [(.text 13, .cmap [(.text 100, .link (SBond.cid k)), (.text 101, .link (SBond.cid v))])]
  | .bond b => .cmap [(.text 14, .link (SBond.cid b))]
  | .selfRef n => .cmap [(.text 15, .int n)]

/-- `Bond::cid` at `T = Structure`. -/
def SBond.cid : SBond → Key
  | .unresolved k => k
  | .resolved cached s =>
    match cached with
    | some k => k
    | none => hashCbor (encodeS s)

def encodeSBondList : List SBond → List CborVal
  | [] => []
  | b :: bs => .link (SBond.cid b) :: encodeSBondList bs

def encodeFieldList : List (Nat × SBond) → List (CborVal × CborVal)
  | [] => []
  | (n, b) :: fs => (.text n, .link (SBond.cid b)) :: encodeFieldList fs

def encodeNameList : List Nat → List CborVal
  | [] => []
  | n :: ns => .text n :: encodeNameList ns

end

/-- `compute_cid` of a structure. -/
def Structure.computeCid (s : Structure) : Key := hashCbor (encodeS s)

/-- `bond.value()` at `T = Structure`: the target only when resolved. -/
def SBond.value : SBond → Option Structure
  | .unresolved _ => none
  | .resolved _ s => some s

def parseLinkList : List CborVal → Option (List SBond)
  | [] => some []
  | .link k :: xs => (parseLinkList xs).map (SBond.unresolved k :: ·)
  | _ => none

def parseFieldEntries : List (CborVal × CborVal) → Option (List (Nat × SBond))
  | [] => some []
  | (.text n, .link k) :: es => (parseFieldEntries es).map ((n, SBond.unresolved k) :: ·)
  | _ => none

def parseNameList : List CborVal → Option (List Nat)
  | [] => some []
  | .text n :: xs => (parseNameList xs).map (n :: ·)
  | _ => none

/-- Decoding of a schema blob (serde deserialize of `Structure`): the
partial inverse of `encodeS`; every bond comes back `Unresolved`. -/
def parseS : CborVal → Option Structure
  | .text 0 => some .bool
  | .text 1 => some .char
  | .text 2 => some .unicode
  | .text 3 => some .byteString
  | .text 6 => some .unit
  | .cmap [(.text 4, .text t)] => some (.int t)
  | .cmap [(.text 5, .text t)] => some (.float t)
  | .cmap [(.text 7, .link k)] => some (.sequence (.unresolved k))
  | .cmap [(.text 8, .list xs)] => (parseLinkList xs).map .tuple
  | .cmap [(.text 9, .cmap es)] => (parseFieldEntries es).map .record
  | .cmap [(.text 10, .cmap es)] => (parseFieldEntries es).map .tagged
  | .cmap [(.text 11, .list xs)] => (parseNameList xs).map .enum
  | .cmap [(.text 12, .cmap [(.text 100, .link k), (.text 101, .link v)])] =>
    some (.map (.unresolved k) (.unresolved v))
  | .cmap [(.text 13, .cmap [(.text 100, .link k), (.text 101, .link v)])] =>
    some (.orderedMap (.unresolved k) (.unresolved v))
  | .cmap [(.text 14, .link k)] => some (.bond (.unresolved k))
  | .cmap [(.text 15, .int n)] => some (.selfRef n)
  | _ => none

/-! ## The solvent at `T = Structure`

The sync layer and the schema wave of `persist_cell` use a `Solvent`
holding only `Structure` cells (`schemas: &mut Solvent`,
`schema_solvent`).  This is `Solvent::add` specialized: the downcast
always succeeds, so the type-erasure bookkeeping drops out. -/

structure SchemaSolvent where
  cells : List (Key × Structure)

def SchemaSolvent.empty : SchemaSolvent := ⟨[]⟩

def lookupS : List (Key × Structure) → Key → Option Structure
  | [], _ => none
  | (k', c) :: rest, k => if k' = k then some c else lookupS rest k

def insertS : List (Key × Structure) → Key → Structure → List (Key × Structure)
  | [], k, c => [(k, c)]
  | (k', c') :: rest, k, c =>
    if k' = k then (k, c) :: rest else (k', c') :: insertS rest k c

/-- `Solvent::get::<Structure>`. -/
def SchemaSolvent.get (sv : SchemaSolvent) (k : Key) : Option Structure :=
  lookupS sv.cells k

mutual

/-- `Solvent::add` at `T = Structure`: compute the cid; return the
interned structure if present; otherwise rewrite the structure's bonds
through the mapper (`Structure::map_bonds`, whose per-constructor
dispatch is inlined here so the recursion is structural) and insert.
Returns the cell (key and value) and the updated solvent. -/
def SchemaSolvent.add (s0 : Structure) (sv : SchemaSolvent) :
    (Key × Structure) × SchemaSolvent :=
  match s0 with
  | .sequence b =>
    let k := Structure.computeCid (.sequence b)
    match lookupS sv.cells k with
    | some c => ((k, c), sv)
    | none =>
      let (b', sv') := SchemaSolvent.mapSB b sv
      ((k, .sequence b'), ⟨insertS sv'.cells k (.sequence b')⟩)
  | .tuple bs =>
    let k := Structure.computeCid (.tuple bs)
    match lookupS sv.cells k with
    | some c => ((k, c), sv)
    | none =>
      let (bs', sv') := SchemaSolvent.mapSBList bs sv
      ((k, .tuple bs'), ⟨insertS sv'.cells k (.tuple bs')⟩)
  | .record fs =>
    let k := Structure.computeCid (.record fs)
    match lookupS sv.cells k with
    | some c => ((k, c), sv)
    | none =>
      let (fs', sv') := SchemaSolvent.mapFieldList fs sv
      ((k, .record fs'), ⟨insertS sv'.cells k (.record fs')⟩)
  | .tagged fs =>
    let k := Structure.computeCid (.tagged fs)
    match lookupS sv.cells k with
    | some c => ((k, c), sv)
    | none =>
      let (fs', sv') := SchemaSolvent.mapFieldList fs sv
      ((k, .tagged fs'), ⟨insertS sv'.cells k (.tagged fs')⟩)
  | .map kb vb =>
    let k := Structure.computeCid (.map kb vb)
    match lookupS sv.cells k with
    | some c => ((k, c), sv)
    | none =>
      let (kb', sv') := SchemaSolvent.mapSB kb sv
      let (vb', sv'') := SchemaSolvent.mapSB vb sv'
      ((k, .map kb' vb'), ⟨insertS sv''.cells k (.map kb' vb')⟩)
  | .orderedMap kb vb =>
    let k := Structure.computeCid (.orderedMap kb vb)
    match lookupS sv.cells k with
    | some c => ((k, c), sv)
    | none =>
      let (kb', sv') := SchemaSolvent.mapSB kb sv
      let (vb', sv'') := SchemaSolvent.mapSB vb sv'
      ((k, .orderedMap kb' vb'), ⟨insertS sv''.cells k (.orderedMap kb' vb')⟩)
  | .bond b =>
    let k := Structure.computeCid (.bond b)
    match lookupS sv.cells k with
    | some c => ((k, c), sv)
    | none =>
      let (b', sv') := SchemaSolvent.mapSB b sv
      ((k, .bond b'), ⟨insertS sv'.cells k (.bond b')⟩)
  | other =>
    let k := Structure.computeCid other
    match lookupS sv.cells k with
    | some c => ((k, c), sv)
    | none => ((k, other), ⟨insertS sv.cells k other⟩)

/-- `SolventBondMapper::map_bond` at `T = Structure`: upgrade an
unresolved bond when interned; recursively add a resolved target and
re-bind to the interned cell. -/
def SchemaSolvent.mapSB (b : SBond) (sv : SchemaSolvent) : SBond × SchemaSolvent :=
  match b with
  | .unresolved k =>
    match lookupS sv.cells k with
    | some c => (.resolved (some k) c, sv)
    | none => (.unresolved k, sv)
  | .resolved _cached t =>
    let ((k, t'), sv') := SchemaSolvent.add t sv
    (.resolved (some k) t', sv')

def SchemaSolvent.mapSBList (bs : List SBond) (sv : SchemaSolvent) :
    List SBond × SchemaSolvent :=
  match bs with
  | [] => ([], sv)
  | b :: rest =>
    let (b', sv') := SchemaSolvent.mapSB b sv
    let (rest', sv'') := SchemaSolvent.mapSBList rest sv'
    (b' :: rest', sv'')

def SchemaSolvent.mapFieldList (fs : List (Nat × SBond)) (sv : SchemaSolvent) :
    List (Nat × SBond) × SchemaSolvent :=
  match fs with
  | [] => ([], sv)
  | (n, b) :: rest =>
    let (b', sv') := SchemaSolvent.mapSB b sv
    let (rest', sv'') := SchemaSolvent.mapFieldList rest sv'
    ((n, b') :: rest', sv'')

end

mutual

/-- Every nested schema bond is in the `Resolved` state (true of every
`T::schema()` tree, which is built from `Bond::new` cells). -/
def Structure.allResolved : Structure → Bool
  | .sequence b => SBond.allResolved b
  | .tuple bs => allResolvedList bs
  | .record fs => allResolvedFields fs
  | .tagged fs => allResolvedFields fs
  | .map k v => SBond.allResolved k && SBond.allResolved v
  | .orderedMap k v => SBond.allResolved k && SBond.allResolved v
  | .bond b => SBond.allResolved b
  | _ => true

def SBond.allResolved : SBond → Bool
  | .unresolved _ => false
  | .resolved _ t => Structure.allResolved t

def allResolvedList : List SBond → Bool
  | [] => true
  | b :: bs => SBond.allResolved b && allResolvedList bs

def allResolvedFields : List (Nat × SBond) → Bool
  | [] => true
  | (_, b) :: fs => SBond.allResolved b && allResolvedFields fs

end

/-- The schema bonds directly held by a structure (its `map_bonds`
positions). -/
def SBondIn (b : SBond) : Structure → Prop
  | .sequence b' => b = b'
  | .tuple bs => b ∈ bs
  | .record fs => ∃ n, (n, b) ∈ fs
  | .tagged fs => ∃ n, (n, b) ∈ fs
  | .map k v => b = k ∨ b = v
  | .orderedMap k v => b = k ∨ b = v
  | .bond b' => b = b'
  | _ => False

theorem sizeOf_lt_of_sbondIn {b : SBond} {s : Structure} (h : SBondIn b s) :
    sizeOf b < sizeOf s := by
  cases s <;> simp only [SBondIn] at h
  case sequence b' =>
    subst h
    simp only [Structure.sequence.sizeOf_spec]
    omega
  case tuple bs =>
    have := List.sizeOf_lt_of_mem h
    simp only [Structure.tuple.sizeOf_spec]
    omega
  case record fs =>
    obtain ⟨n, hn⟩ := h
    have h1 := List.sizeOf_lt_of_mem hn
    have h2 : sizeOf b < sizeOf (n, b) := by simp
    simp only [Structure.record.sizeOf_spec]
    omega
  case tagged fs =>
    obtain ⟨n, hn⟩ := h
    have h1 := List.sizeOf_lt_of_mem hn
    have h2 : sizeOf b < sizeOf (n, b) := by simp
    simp only [Structure.tagged.sizeOf_spec]
    omega
  case map k v =>
    rcases h with h | h
    all_goals subst h
    all_goals simp only [Structure.map.sizeOf_spec]
    all_goals omega
  case orderedMap k v =>
    rcases h with h | h
    all_goals subst h
    all_goals simp only [Structure.orderedMap.sizeOf_spec]
    all_goals omega
  case bond b' =>
    subst h
    simp only [Structure.bond.sizeOf_spec]
    omega

/-- Induction on structures following the bond-target structure. -/
theorem Structure.structInduction {P : Structure → Prop}
    (h : ∀ s : Structure,
      (∀ (cached : Option Key) (t : Structure), SBondIn (SBond.resolved cached t) s → P t) →
      P s) :
    ∀ s, P s := by
  have key : ∀ n s, sizeOf s < n → P s := by
    intro n
    induction n with
    | zero => intro s hs; omega
    | succ n ih =>
      intro s hs
      apply h
      intro cached t ht
      apply ih
      have h1 := sizeOf_lt_of_sbondIn ht
      have h2 : sizeOf t < sizeOf (SBond.resolved cached t) := by
        simp only [SBond.resolved.sizeOf_spec]
        omega
      omega
  intro s
  exact key (sizeOf s + 1) s (by omega)

def svKeys (sv : SchemaSolvent) : List Key := sv.cells.map Prod.fst

theorem lookupS_mem {cells : List (Key × Structure)} {k : Key} {c : Structure}
    (h : lookupS cells k = some c) : (k, c) ∈ cells := by
  induction cells with
  | nil => simp [lookupS] at h
  | cons e rest ih =>
    obtain ⟨k0, c0⟩ := e
    by_cases hk : k0 = k
    · subst hk
      simp only [lookupS, if_pos rfl] at h
      injection h with h'
      subst h'
      exact List.mem_cons_self _ _
    · simp only [lookupS, if_neg hk] at h
      exact List.mem_cons_of_mem _ (ih h)

theorem mem_insertS {cells : List (Key × Structure)} {k : Key} {c : Structure}
    {e : Key × Structure} (h : e ∈ insertS cells k c) : e = (k, c) ∨ e ∈ cells := by
  induction cells with
  | nil => simpa [insertS] using h
  | cons e0 rest ih =>
    obtain ⟨k0, c0⟩ := e0
    by_cases hk : k0 = k
    · subst hk
      simp only [insertS, if_pos rfl] at h
      rcases List.mem_cons.mp h with h1 | h2
      · exact Or.inl h1
      · exact Or.inr (List.mem_cons_of_mem _ h2)
    · simp only [insertS, if_neg hk] at h
      rcases List.mem_cons.mp h with h1 | h2
      · exact Or.inr (by simp [h1])
      · rcases ih h2 with h3 | h4
        · exact Or.inl h3
        · exact Or.inr (List.mem_cons_of_mem _ h4)

theorem insertS_keys_mono {cells : List (Key × Structure)} {k : Key} {c : Structure}
    {x : Key} (h : x ∈ cells.map Prod.fst) :
    x ∈ (insertS cells k c).map Prod.fst := by
  induction cells with
  | nil => simp at h
  | cons e0 rest ih =>
    obtain ⟨k0, c0⟩ := e0
    by_cases hk : k0 = k
    · subst hk
      simp only [insertS, if_true, List.map_cons, List.mem_cons] at h ⊢
      exact h
    · simp only [insertS, if_neg hk, List.map_cons, List.mem_cons] at h ⊢
      tauto

theorem insertS_key_mem (cells : List (Key × Structure)) (k : Key) (c : Structure) :
    k ∈ (insertS cells k c).map Prod.fst := by
  induction cells with
  | nil => simp [insertS]
  | cons e0 rest ih =>
    obtain ⟨k0, c0⟩ := e0
    by_cases hk : k0 = k
    · subst hk
      simp [insertS]
    · simp only [insertS, if_neg hk, List.map_cons, List.mem_cons]
      tauto

/-- A schema solvent is closed when every interned structure's encoding
links only to interned keys. -/
def SchemaClosed (sv : SchemaSolvent) : Prop :=
  ∀ e ∈ sv.cells, cborLinks (encodeS e.2) ⊆ svKeys sv

/-- Postcondition of `SchemaSolvent.add`. -/
def SchemaAddPost (s0 : Structure) : Prop :=
  ∀ sv : SchemaSolvent,
    (∀ x ∈ svKeys sv, x ∈ svKeys (SchemaSolvent.add s0 sv).2) ∧
    (Structure.allResolved s0 = true → SchemaClosed sv →
      SchemaClosed (SchemaSolvent.add s0 sv).2 ∧
      (SchemaSolvent.add s0 sv).1.1 ∈ svKeys (SchemaSolvent.add s0 sv).2)

/-- Postcondition of the schema bond mapper. -/
def SchemaMapSBPost (b : SBond) : Prop :=
  ∀ sv : SchemaSolvent,
    (∀ x ∈ svKeys sv, x ∈ svKeys (SchemaSolvent.mapSB b sv).2) ∧
    (SBond.allResolved b = true → SchemaClosed sv →
      SchemaClosed (SchemaSolvent.mapSB b sv).2 ∧
      SBond.cid (SchemaSolvent.mapSB b sv).1 ∈ svKeys (SchemaSolvent.mapSB b sv).2)

def SchemaMapListPost (bs : List SBond) : Prop :=
  ∀ sv : SchemaSolvent,
    (∀ x ∈ svKeys sv, x ∈ svKeys (SchemaSolvent.mapSBList bs sv).2) ∧
    (allResolvedList bs = true → SchemaClosed sv →
      SchemaClosed (SchemaSolvent.mapSBList bs sv).2 ∧
      ∀ b' ∈ (SchemaSolvent.mapSBList bs sv).1,
        SBond.cid b' ∈ svKeys (SchemaSolvent.mapSBList bs sv).2)

def SchemaMapFieldsPost (fs : List (Nat × SBond)) : Prop :=
  ∀ sv : SchemaSolvent,
    (∀ x ∈ svKeys sv, x ∈ svKeys (SchemaSolvent.mapFieldList fs sv).2) ∧
    (allResolvedFields fs = true → SchemaClosed sv →
      SchemaClosed (SchemaSolvent.mapFieldList fs sv).2 ∧
      ∀ e ∈ (SchemaSolvent.mapFieldList fs sv).1,
        SBond.cid e.2 ∈ svKeys (SchemaSolvent.mapFieldList fs sv).2)

theorem cborLinksList_encodeSBondList (bs : List SBond) :
    cborLinksList (encodeSBondList bs) = bs.map SBond.cid := by
  induction bs with
  | nil => rfl
  | cons b rest ih => simp [encodeSBondList, cborLinksList, cborLinks, ih]

theorem cborLinksList_encodeNameList (ns : List Nat) :
    cborLinksList (encodeNameList ns) = [] := by
  induction ns with
  | nil => rfl
  | cons n rest ih => simp [encodeNameList, cborLinksList, cborLinks, ih]

theorem cborLinksEntries_encodeFieldList (fs : List (Nat × SBond)) :
    cborLinksEntries (encodeFieldList fs) = fs.map (fun e => SBond.cid e.2) := by
  induction fs with
  | nil => rfl
  | cons e rest ih =>
    obtain ⟨n, b⟩ := e
    simp [encodeFieldList, cborLinksEntries, cborLinks, ih]

/-- Inserting an entry whose links are already interned preserves
closure. -/
theorem SchemaClosed.insert {sv' : SchemaSolvent} {k : Key} {s' : Structure}
    (hcl : SchemaClosed sv')
    (hnew : cborLinks (encodeS s') ⊆ svKeys sv') :
    SchemaClosed ⟨insertS sv'.cells k s'⟩ := by
  intro e he
  rcases mem_insertS he with h1 | h2
  · subst h1
    intro x hx
    exact insertS_keys_mono (hnew hx)
  · intro x hx
    exact insertS_keys_mono (hcl e h2 hx)

theorem schemaSolvent_add_post : ∀ s0 : Structure, SchemaAddPost s0 := by
  have hmapSB : ∀ b : SBond,
      (∀ cached t, b = SBond.resolved cached t → SchemaAddPost t) → SchemaMapSBPost b := by
    intro b IH
    cases b with
    | unresolved k =>
      intro sv
      constructor
      · intro x hx
        rw [SchemaSolvent.mapSB]
        cases hl : lookupS sv.cells k <;> simpa using hx
      · intro hres
        simp [SBond.allResolved] at hres
    | resolved cached t =>
      have hadd := IH cached t rfl
      intro sv
      obtain ⟨a1, a2⟩ := hadd sv
      constructor
      · intro x hx
        rw [SchemaSolvent.mapSB]
        exact a1 x hx
      · intro hres hcl
        simp only [SBond.allResolved] at hres
        obtain ⟨c1, c2⟩ := a2 hres hcl
        rw [SchemaSolvent.mapSB]
        exact ⟨c1, c2⟩
  have hmapList : ∀ bs : List SBond,
      (∀ b ∈ bs, SchemaMapSBPost b) → SchemaMapListPost bs := by
    intro bs IH
    induction bs with
    | nil =>
      intro sv
      refine ⟨fun x hx => by simpa [SchemaSolvent.mapSBList] using hx, fun _ hcl => ?_⟩
      constructor
      · simpa [SchemaSolvent.mapSBList] using hcl
      · intro b' hb'
        simp [SchemaSolvent.mapSBList] at hb'
    | cons b rest ih =>
      have hb := IH b (List.mem_cons_self _ _)
      have hrest := ih (fun b' hb' => IH b' (List.mem_cons_of_mem _ hb'))
      intro sv
      obtain ⟨b1, b2⟩ := hb sv
      obtain ⟨r1, r2⟩ := hrest (SchemaSolvent.mapSB b sv).2
      have step : SchemaSolvent.mapSBList (b :: rest) sv =
          ((SchemaSolvent.mapSB b sv).1 ::
            (SchemaSolvent.mapSBList rest (SchemaSolvent.mapSB b sv).2).1,
           (SchemaSolvent.mapSBList rest (SchemaSolvent.mapSB b sv).2).2) := by
        rw [SchemaSolvent.mapSBList]
      rw [step]
      constructor
      · intro x hx
        exact r1 x (b1 x hx)
      · intro hres hcl
        simp only [allResolvedList, Bool.and_eq_true] at hres
        obtain ⟨c1, c2⟩ := b2 hres.1 hcl
        obtain ⟨d1, d2⟩ := r2 hres.2 c1
        refine ⟨d1, ?_⟩
        intro b' hb'
        rcases List.mem_cons.mp hb' with h1 | h2
        · subst h1
          exact r1 _ c2
        · exact d2 _ h2
  have hmapFields : ∀ fs : List (Nat × SBond),
      (∀ e ∈ fs, SchemaMapSBPost e.2) → SchemaMapFieldsPost fs := by
    intro fs IH
    induction fs with
    | nil =>
      intro sv
      refine ⟨fun x hx => by simpa [SchemaSolvent.mapFieldList] using hx, fun _ hcl => ?_⟩
      constructor
      · simpa [SchemaSolvent.mapFieldList] using hcl
      · intro e he
        simp [SchemaSolvent.mapFieldList] at he
    | cons e rest ih =>
      obtain ⟨n, b⟩ := e
      have hb := IH (n, b) (List.mem_cons_self _ _)
      have hrest := ih (fun e' he' => IH e' (List.mem_cons_of_mem _ he'))
      intro sv
      obtain ⟨b1, b2⟩ := hb sv
      obtain ⟨r1, r2⟩ := hrest (SchemaSolvent.mapSB b sv).2
      have step : SchemaSolvent.mapFieldList ((n, b) :: rest) sv =
          ((n, (SchemaSolvent.mapSB b sv).1) ::
            (SchemaSolvent.mapFieldList rest (SchemaSolvent.mapSB b sv).2).1,
           (SchemaSolvent.mapFieldList rest (SchemaSolvent.mapSB b sv).2).2) := by
        rw [SchemaSolvent.mapFieldList]
      rw [step]
      constructor
      · intro x hx
        exact r1 x (b1 x hx)
      · intro hres hcl
        simp only [allResolvedFields, Bool.and_eq_true] at hres
        obtain ⟨c1, c2⟩ := b2 hres.1 hcl
        obtain ⟨d1, d2⟩ := r2 hres.2 c1
        refine ⟨d1, ?_⟩
        intro e' he'
        rcases List.mem_cons.mp he' with h1 | h2
        · subst h1
          exact r1 _ c2
        · exact d2 _ h2
  have hsome : ∀ (sv : SchemaSolvent) (k : Key) (c : Structure),
      lookupS sv.cells k = some c → k ∈ svKeys sv := by
    intro sv k c hl
    exact List.mem_map_of_mem Prod.fst (lookupS_mem hl)
  intro s0
  induction s0 using Structure.structInduction with
  | _ s IH =>
  cases s
  case sequence b =>
    have hSB := hmapSB b (fun cached t hb => IH cached t hb.symm)
    intro sv
    obtain ⟨m1, m2⟩ := hSB sv
    rcases hmb : SchemaSolvent.mapSB b sv with ⟨b', sv'⟩
    rw [hmb] at m1 m2
    simp only [SchemaSolvent.add, hmb]
    cases hl : lookupS sv.cells (Structure.computeCid (.sequence b)) with
    | some c =>
      exact ⟨fun x hx => hx, fun _ hcl => ⟨hcl, hsome sv _ c hl⟩⟩
    | none =>
      constructor
      · intro x hx
        exact insertS_keys_mono (m1 x hx)
      · intro hres hcl
        simp only [Structure.allResolved] at hres
        obtain ⟨c1, c2⟩ := m2 hres hcl
        refine ⟨c1.insert ?_, insertS_key_mem _ _ _⟩
        intro x hx
        simp only [encodeS, cborLinks, cborLinksEntries, cborLinksList,
          List.append_nil, List.nil_append, List.mem_singleton, List.mem_cons,
          List.not_mem_nil, or_false] at hx
        rw [hx]
        exact c2
  case bond b =>
    have hSB := hmapSB b (fun cached t hb => IH cached t hb.symm)
    intro sv
    obtain ⟨m1, m2⟩ := hSB sv
    rcases hmb : SchemaSolvent.mapSB b sv with ⟨b', sv'⟩
    rw [hmb] at m1 m2
    simp only [SchemaSolvent.add, hmb]
    cases hl : lookupS sv.cells (Structure.computeCid (.bond b)) with
    | some c =>
      exact ⟨fun x hx => hx, fun _ hcl => ⟨hcl, hsome sv _ c hl⟩⟩
    | none =>
      constructor
      · intro x hx
        exact insertS_keys_mono (m1 x hx)
      · intro hres hcl
        simp only [Structure.allResolved] at hres
        obtain ⟨c1, c2⟩ := m2 hres hcl
        refine ⟨c1.insert ?_, insertS_key_mem _ _ _⟩
        intro x hx
        simp only [encodeS, cborLinks, cborLinksEntries, cborLinksList,
          List.append_nil, List.nil_append, List.mem_singleton, List.mem_cons,
          List.not_mem_nil, or_false] at hx
        rw [hx]
        exact c2
  case tuple bs =>
    have hLP := hmapList bs (fun b hbmem =>
      hmapSB b (fun cached t hb => IH cached t (by rw [hb] at hbmem; exact hbmem)))
    intro sv
    obtain ⟨m1, m2⟩ := hLP sv
    rcases hmb : SchemaSolvent.mapSBList bs sv with ⟨bs', sv'⟩
    rw [hmb] at m1 m2
    simp only [SchemaSolvent.add, hmb]
    cases hl : lookupS sv.cells (Structure.computeCid (.tuple bs)) with
    | some c =>
      exact ⟨fun x hx => hx, fun _ hcl => ⟨hcl, hsome sv _ c hl⟩⟩
    | none =>
      constructor
      · intro x hx
        exact insertS_keys_mono (m1 x hx)
      · intro hres hcl
        simp only [Structure.allResolved] at hres
        obtain ⟨c1, c2⟩ := m2 hres hcl
        refine ⟨c1.insert ?_, insertS_key_mem _ _ _⟩
        intro x hx
        simp only [encodeS, cborLinks, cborLinksEntries, cborLinksList,
          List.append_nil, List.nil_append, cborLinksList_encodeSBondList,
          List.mem_map] at hx
        obtain ⟨bb, hbb, hx'⟩ := hx
        rw [← hx']
        exact c2 bb hbb
  case record fs =>
    have hFP := hmapFields fs (fun e hemem =>
      hmapSB e.2 (fun cached t hb =>
        IH cached t ⟨e.1, by rw [← hb, Prod.mk.eta]; exact hemem⟩))
    intro sv
    obtain ⟨m1, m2⟩ := hFP sv
    rcases hmb : SchemaSolvent.mapFieldList fs sv with ⟨fs', sv'⟩
    rw [hmb] at m1 m2
    simp only [SchemaSolvent.add, hmb]
    cases hl : lookupS sv.cells (Structure.computeCid (.record fs)) with
    | some c =>
      exact ⟨fun x hx => hx, fun _ hcl => ⟨hcl, hsome sv _ c hl⟩⟩
    | none =>
      constructor
      · intro x hx
        exact insertS_keys_mono (m1 x hx)
      · intro hres hcl
        simp only [Structure.allResolved] at hres
        obtain ⟨c1, c2⟩ := m2 hres hcl
        refine ⟨c1.insert ?_, insertS_key_mem _ _ _⟩
        intro x hx
        simp only [encodeS, cborLinks, cborLinksEntries, cborLinksList,
          List.append_nil, List.nil_append, cborLinksEntries_encodeFieldList,
          List.mem_map] at hx
        obtain ⟨ee, hee, hx'⟩ := hx
        rw [← hx']
        exact c2 ee hee
  case tagged fs =>
    have hFP := hmapFields fs (fun e hemem =>
      hmapSB e.2 (fun cached t hb =>
        IH cached t ⟨e.1, by rw [← hb, Prod.mk.eta]; exact hemem⟩))
    intro sv
    obtain ⟨m1, m2⟩ := hFP sv
    rcases hmb : SchemaSolvent.mapFieldList fs sv with ⟨fs', sv'⟩
    rw [hmb] at m1 m2
    simp only [SchemaSolvent.add, hmb]
    cases hl : lookupS sv.cells (Structure.computeCid (.tagged fs)) with
    | some c =>
      exact ⟨fun x hx => hx, fun _ hcl => ⟨hcl, hsome sv _ c hl⟩⟩
    | none =>
      constructor
      · intro x hx
        exact insertS_keys_mono (m1 x hx)
      · intro hres hcl
        simp only [Structure.allResolved] at hres
        obtain ⟨c1, c2⟩ := m2 hres hcl
        refine ⟨c1.insert ?_, insertS_key_mem _ _ _⟩
        intro x hx
        simp only [encodeS, cborLinks, cborLinksEntries, cborLinksList,
          List.append_nil, List.nil_append, cborLinksEntries_encodeFieldList,
          List.mem_map] at hx
        obtain ⟨ee, hee, hx'⟩ := hx
        rw [← hx']
        exact c2 ee hee
  case map kb vb =>
    have hK := hmapSB kb (fun cached t hb => IH cached t (Or.inl hb.symm))
    have hV := hmapSB vb (fun cached t hb => IH cached t (Or.inr hb.symm))
    intro sv
    obtain ⟨k1, k2⟩ := hK sv
    rcases hmk : SchemaSolvent.mapSB kb sv with ⟨kb', sv1⟩
    rw [hmk] at k1 k2
    obtain ⟨v1, v2⟩ := hV sv1
    rcases hmv : SchemaSolvent.mapSB vb sv1 with ⟨vb', sv2⟩
    rw [hmv] at v1 v2
    simp only [SchemaSolvent.add, hmk, hmv]
    cases hl : lookupS sv.cells (Structure.computeCid (.map kb vb)) with
    | some c =>
      exact ⟨fun x hx => hx, fun _ hcl => ⟨hcl, hsome sv _ c hl⟩⟩
    | none =>
      constructor
      · intro x hx
        exact insertS_keys_mono (v1 x (k1 x hx))
      · intro hres hcl
        simp only [Structure.allResolved, Bool.and_eq_true] at hres
        obtain ⟨c1, c2⟩ := k2 hres.1 hcl
        obtain ⟨d1, d2⟩ := v2 hres.2 c1
        refine ⟨d1.insert ?_, insertS_key_mem _ _ _⟩
        intro x hx
        have hx' : x = SBond.cid kb' ∨ x = SBond.cid vb' := by
          simpa [encodeS, cborLinks, cborLinksEntries, cborLinksList] using hx
        rcases hx' with h | h
        · rw [h]
          exact v1 _ c2
        · rw [h]
          exact d2
  case orderedMap kb vb =>
    have hK := hmapSB kb (fun cached t hb => IH cached t (Or.inl hb.symm))
    have hV := hmapSB vb (fun cached t hb => IH cached t (Or.inr hb.symm))
    intro sv
    obtain ⟨k1, k2⟩ := hK sv
    rcases hmk : SchemaSolvent.mapSB kb sv with ⟨kb', sv1⟩
    rw [hmk] at k1 k2
    obtain ⟨v1, v2⟩ := hV sv1
    rcases hmv : SchemaSolvent.mapSB vb sv1 with ⟨vb', sv2⟩
    rw [hmv] at v1 v2
    simp only [SchemaSolvent.add, hmk, hmv]
    cases hl : lookupS sv.cells (Structure.computeCid (.orderedMap kb vb)) with
    | some c =>
      exact ⟨fun x hx => hx, fun _ hcl => ⟨hcl, hsome sv _ c hl⟩⟩
    | none =>
      constructor
      · intro x hx
        exact insertS_keys_mono (v1 x (k1 x hx))
      · intro hres hcl
        simp only [Structure.allResolved, Bool.and_eq_true] at hres
        obtain ⟨c1, c2⟩ := k2 hres.1 hcl
        obtain ⟨d1, d2⟩ := v2 hres.2 c1
        refine ⟨d1.insert ?_, insertS_key_mem _ _ _⟩
        intro x hx
        have hx' : x = SBond.cid kb' ∨ x = SBond.cid vb' := by
          simpa [encodeS, cborLinks, cborLinksEntries, cborLinksList] using hx
        rcases hx' with h | h
        · rw [h]
          exact v1 _ c2
        · rw [h]
          exact d2
  all_goals {
    intro sv
    simp only [SchemaSolvent.add]
    constructor
    · intro x hx
      split
      · exact hx
      · exact insertS_keys_mono hx
    · intro _ hcl
      split
      next c hl => exact ⟨hcl, hsome sv _ c hl⟩
      next hl =>
        refine ⟨hcl.insert ?_, insertS_key_mem _ _ _⟩
        intro x hx
        simp [encodeS, cborLinks, cborLinksEntries, cborLinksList,
          cborLinksList_encodeNameList] at hx
  }

/-! ## `collect_bonds`, sync-layer version (`sync.rs`)

Operates on `ciborium::Value` (map keys are arbitrary values).  The
`schemas: &Solvent` parameter of the Rust function is never used in its
body and is omitted.  Schema bonds are only descended when resolved
(`bond.value()`), matched here structurally on the `resolved`
constructor. -/

namespace Sync

/-- Looks a record field name up in a ciborium map: the code collects
`(name, value)` pairs into a `HashMap`, so a duplicated name resolves to
its last occurrence. -/
def lookupTextLast (m : List (CborVal × CborVal)) (n : Nat) : Option CborVal :=
  match m with
  | [] => none
  | (k, v) :: rest =>
    match lookupTextLast rest n with
    | some r => some r
    | none =>
      match k with
      | .text t => if t = n then some v else none
      | _ => none

/-- `IndexMap::get` on a variant table. -/
def lookupVariant (vs : List (Nat × SBond)) (n : Nat) : Option SBond :=
  match vs with
  | [] => none
  | (t, b) :: rest => if t = n then some b else lookupVariant rest n

mutual

/-- `collect_bonds` from `sync.rs`: extract `(target_key, schema_key)`
pairs from a value given its schema, silently skipping malformed data. -/
def collect_bonds (value : CborVal) (schema : Structure) : List (Key × Key) :=
  match schema with
  | .bond inner =>
    match value with
    | .link k => [(k, SBond.cid inner)]
    | _ => []
  | .record fields =>
    match value with
    | .cmap m => collectFields m fields
    | _ => []
  | .sequence inner =>
    match value with
    | .list arr =>
      match inner with
      | .resolved _ s => collectSeq arr s
      | .unresolved _ => []
    | _ => []
  | .tuple elems =>
    match value with
    | .list arr => collectTuple elems arr
    | _ => []
  | .tagged variants =>
    match value with
    | .cmap [(.text n, payload)] => collectTagged variants n payload
    | _ => []
  | .map k v =>
    match value with
    | .cmap m =>
      match k, v with
      | .resolved _ ks, .resolved _ vs => collectMapEntries m ks vs
      | _, _ => []
    | _ => []
  | .orderedMap k v =>
    match value with
    | .cmap m =>
      match k, v with
      | .resolved _ ks, .resolved _ vs => collectMapEntries m ks vs
      | _, _ => []
    | _ => []
  | _ => []
termination_by (sizeOf schema, 0)

/-- Record case: iterate the schema's fields in order, looking each name
up among the blob's entries. -/
def collectFields (m : List (CborVal × CborVal)) (fields : List (Nat × SBond)) :
    List (Key × Key) :=
  match fields with
  | [] => []
  | (n, b) :: rest =>
    (match lookupTextLast m n with
     | some fv =>
       match b with
       | .resolved _ s => collect_bonds fv s
       | .unresolved _ => []
     | none => []) ++ collectFields m rest
termination_by (sizeOf fields, 1)

/-- Tagged case: `variants.get(name)` and descend into the selected
variant schema when resolved (`IndexMap` lookup inlined for structural
recursion). -/
def collectTagged (variants : List (Nat × SBond)) (n : Nat) (payload : CborVal) :
    List (Key × Key) :=
  match variants with
  | [] => []
  | (t, b) :: rest =>
    if t = n then
      match b with
      | .resolved _ s => collect_bonds payload s
      | .unresolved _ => []
    else collectTagged rest n payload
termination_by (sizeOf variants, 1)

def collectSeq (arr : List CborVal) (s : Structure) : List (Key × Key) :=
  match arr with
  | [] => []
  | x :: rest => collect_bonds x s ++ collectSeq rest s
termination_by (sizeOf s, 1 + sizeOf arr)

def collectTuple (elems : List SBond) (arr : List CborVal) : List (Key × Key) :=
  match elems, arr with
  | e :: es, x :: xs =>
    (match e with
     | .resolved _ s => collect_bonds x s
     | .unresolved _ => []) ++ collectTuple es xs
  | _, _ => []
termination_by (sizeOf elems, 1)

/-- Map/OrderedMap case: descend into each entry's key under the key
schema *and* each entry's value under the value schema. -/
def collectMapEntries (m : List (CborVal × CborVal)) (ks vs : Structure) :
    List (Key × Key) :=
  match m with
  | [] => []
  | (mk, mv) :: rest =>
    collect_bonds mk ks ++ collect_bonds mv vs ++ collectMapEntries rest ks vs
termination_by (sizeOf ks + sizeOf vs + 1, 1 + sizeOf m)

end

end Sync

/-! ## `collect_bonds`, traverse-module version (`traverse.rs`)

Operates on `Ipld`, whose maps are `BTreeMap<String, Ipld>`: map keys
are strings, and the Map/OrderedMap case "only recurses into values"
(its own comment), ignoring the declared key schema. -/

inductive Ipld : Type where
  | int (n : Nat)
  | text (n : Nat)
  | link (k : Key)
  | list (xs : List Ipld)
  | imap (entries : List (Nat × Ipld))
  | unit

namespace Traverse

/-- `BTreeMap::get` by string key (keys are unique and sorted; first
match). -/
def lookupIpld (m : List (Nat × Ipld)) (n : Nat) : Option Ipld :=
  match m with
  | [] => none
  | (t, v) :: rest => if t = n then some v else lookupIpld rest n

mutual

/-- `collect_bonds` from `traverse.rs`. -/
def collect_bonds (value : Ipld) (schema : Structure) : List (Key × Key) :=
  match schema with
  | .bond inner =>
    match value with
    | .link k => [(k, SBond.cid inner)]
    | _ => []
  | .record fields =>
    match value with
    | .imap m => collectFields m fields
    | _ => []
  | .sequence inner =>
    match value with
    | .list arr =>
      match inner with
      | .resolved _ s => collectSeq arr s
      | .unresolved _ => []
    | _ => []
  | .tuple elems =>
    match value with
    | .list arr => collectTuple elems arr
    | _ => []
  | .tagged variants =>
    match value with
    | .imap [(n, payload)] => collectTagged variants n payload
    | _ => []
  | .map k v =>
    match value with
    | .imap m =>
      match k, v with
      | .resolved _ _ks, .resolved _ vs => collectMapValues m vs
      | _, _ => []
    | _ => []
  | .orderedMap k v =>
    match value with
    | .imap m =>
      match k, v with
      | .resolved _ _ks, .resolved _ vs => collectMapValues m vs
      | _, _ => []
    | _ => []
  | _ => []
termination_by (sizeOf schema, 0)

def collectFields (m : List (Nat × Ipld)) (fields : List (Nat × SBond)) :
    List (Key × Key) :=
  match fields with
  | [] => []
  | (n, b) :: rest =>
    (match lookupIpld m n with
     | some fv =>
       match b with
       | .resolved _ s => collect_bonds fv s
       | .unresolved _ => []
     | none => []) ++ collectFields m rest
termination_by (sizeOf fields, 1)

def collectTagged (variants : List (Nat × SBond)) (n : Nat) (payload : Ipld) :
    List (Key × Key) :=
  match variants with
  | [] => []
  | (t, b) :: rest =>
    if t = n then
      match b with
      | .resolved _ s => collect_bonds payload s
      | .unresolved _ => []
    else collectTagged rest n payload
termination_by (sizeOf variants, 1)

def collectSeq (arr : List Ipld) (s : Structure) : List (Key × Key) :=
  match arr with
  | [] => []
  | x :: rest => collect_bonds x s ++ collectSeq rest s
termination_by (sizeOf s, 1 + sizeOf arr)

def collectTuple (elems : List SBond) (arr : List Ipld) : List (Key × Key) :=
  match elems, arr with
  | e :: es, x :: xs =>
    (match e with
     | .resolved _ s => collect_bonds x s
     | .unresolved _ => []) ++ collectTuple es xs
  | _, _ => []
termination_by (sizeOf elems, 1)

/-- "In IPLD maps, keys are strings, not arbitrary values.  For now we
only recurse into values." -/
def collectMapValues (m : List (Nat × Ipld)) (vs : Structure) : List (Key × Key) :=
  match m with
  | [] => []
  | (_mk, mv) :: rest => collect_bonds mv vs ++ collectMapValues rest vs
termination_by (sizeOf vs, 1 + sizeOf m)

end

end Traverse

/-! ## Persistence (model of `Solvent::persist_cell` in `solvent.rs`)

The store is `MemoryStore` (infallible; `put` is insert-or-replace).
Every `put` is also appended to an ordered `trace` so that write-order
claims can be stated.  `persist_value`/`PersistingMapper` recursion runs
on fuel (each step consumes one unit); `none` means out of fuel. -/

structure PStore where
  blobs : List (Key × CborVal)

def PStore.empty : PStore := ⟨[]⟩

def lookupBlob : List (Key × CborVal) → Key → Option CborVal
  | [], _ => none
  | (k', b) :: rest, k => if k' = k then some b else lookupBlob rest k

def insertBlob : List (Key × CborVal) → Key → CborVal → List (Key × CborVal)
  | [], k, b => [(k, b)]
  | (k', b') :: rest, k, b =>
    if k' = k then (k, b) :: rest else (k', b') :: insertBlob rest k b

/-- `Store::put`. -/
def PStore.put (st : PStore) (k : Key) (b : CborVal) : PStore :=
  ⟨insertBlob st.blobs k b⟩

/-- `Store::has`. -/
def PStore.hasKey (st : PStore) (k : Key) : Bool := (lookupBlob st.blobs k).isSome

/-- `Store::get`. -/
def PStore.get (st : PStore) (k : Key) : Option CborVal := lookupBlob st.blobs k

structure PersistSt where
  store : PStore
  trace : List (Key × CborVal)
  visited : List Key

/-- The static type of a bond's target (`T` in `map_bond::<T>`). -/
def BondV.bty : BondV → Nat
  | .unresolved ty _ => ty
  | .resolved _ v => v.ty

/-- `PersistingMapper::map_bond` over a bond list: skip visited keys;
mark the key visited; look the target up in the solvent by (key,
expected type); if found, write its blob and *then* recurse into its
nested bonds; a target missing from the solvent is silently skipped. -/
def Solvent.persistBonds (s : Solvent) : Nat → List BondV → PersistSt → Option PersistSt
  | 0, _, _ => none
  | _ + 1, [], st => some st
  | fuel + 1, b :: rest, st =>
    let cid := BondV.cid b
    if cid ∈ st.visited then
      Solvent.persistBonds s fuel rest st
    else
      let st1 : PersistSt := ⟨st.store, st.trace, cid :: st.visited⟩
      match Solvent.get s (BondV.bty b) cid with
      | some c =>
        let blob := encodeVal c.val
        let st2 : PersistSt :=
          ⟨st1.store.put cid blob, st1.trace ++ [(cid, blob)], st1.visited⟩
        match Solvent.persistBonds s fuel c.val.bonds st2 with
        | some st3 => Solvent.persistBonds s fuel rest st3
        | none => none
      | none => Solvent.persistBonds s fuel rest st1

/-- `Solvent::persist_value`: mark the value's cid visited, persist all
bond dependencies, then write the value itself. -/
def Solvent.persist_value (s : Solvent) (fuel : Nat) (v : Val) (st : PersistSt) :
    Option PersistSt :=
  let cid := v.computeCid
  if cid ∈ st.visited then some st
  else
    let st1 : PersistSt := ⟨st.store, st.trace, cid :: st.visited⟩
    match Solvent.persistBonds s fuel v.bonds st1 with
    | some st2 =>
      let blob := encodeVal v
      some ⟨st2.store.put cid blob, st2.trace ++ [(cid, blob)], st2.visited⟩
    | none => none

/-- `Solvent::persist_cell`: intern `T::schema()` (the `sch` argument)
in a fresh schema solvent, write every interned schema blob and mark its
key visited, persist the value, and return `(cell.cid(), schema_cid)`. -/
def Solvent.persist_cell (s : Solvent) (fuel : Nat) (cell : CellSt) (sch : Structure)
    (store : PStore) : Option ((Key × Key) × PersistSt) :=
  let r := SchemaSolvent.add sch SchemaSolvent.empty
  let schemaCid := r.1.1
  let st1 := r.2.cells.foldl
    (fun (st : PersistSt) e =>
      ⟨st.store.put e.1 (encodeS e.2), st.trace ++ [(e.1, encodeS e.2)], e.1 :: st.visited⟩)
    ⟨store, [], []⟩
  match Solvent.persist_value s fuel cell.value st1 with
  | some st2 => some (((CellSt.cidCall cell).1, schemaCid), st2)
  | none => none

/-- Executable form of "every bond of `v` resolves in the solvent under
its expected type". -/
def Solvent.bondsResolvable (s : Solvent) (v : Val) : Bool :=
  v.bonds.all fun b =>
    match lookupKey s.cells (BondV.cid b) with
    | some c => c.ty = BondV.bty b
    | none => false

/-- Executable form of "the solvent is closed": every interned cell's
value has all its bonds resolvable. -/
def Solvent.closed (s : Solvent) : Bool :=
  s.cells.all fun e => Solvent.bondsResolvable s e.2.val

end Polyepoxide

namespace Polyepoxide

/-! ## Claims C10 and C7 -/

/-- The Map/OrderedMap entry loop of the sync-layer `collect_bonds`:
each entry contributes the bonds found in its key under the key schema
followed by those found in its value under the value schema. -/
theorem Sync.collectMapEntries_eq (m : List (CborVal × CborVal)) (ks vs : Structure) :
    Sync.collectMapEntries m ks vs =
      m.flatMap (fun e => Sync.collect_bonds e.1 ks ++ Sync.collect_bonds e.2 vs) := by
  induction m with
  | nil => rw [Sync.collectMapEntries]; rfl
  | cons e rest ih =>
    obtain ⟨mk, mv⟩ := e
    rw [Sync.collectMapEntries, ih]
    simp

/-- **C8 (amended)**: the `sync.rs` copy of `collect_bonds` descends map
keys.  For every blob whose schema is `Map(K,V)` or `OrderedMap(K,V)`
(with `K`, `V` resolved, as the sync layer guarantees via
`ensure_schema`), it descends into each entry's key under the declared
key schema `K` as well as into each value under `V`; in particular a
link occurring inside a map key is emitted in the resulting list, as the
closing concrete instance shows.  The `traverse.rs` copy does not (see
the counterexample below). -/
theorem collect_bonds_descends_map_keys :
    (∀ (entries : List (CborVal × CborVal)) (ck cv : Option Key) (ks vs : Structure),
      Sync.collect_bonds (.cmap entries) (.map (.resolved ck ks) (.resolved cv vs)) =
        entries.flatMap
          (fun e => Sync.collect_bonds e.1 ks ++ Sync.collect_bonds e.2 vs) ∧
      Sync.collect_bonds (.cmap entries) (.orderedMap (.resolved ck ks) (.resolved cv vs)) =
        entries.flatMap
          (fun e => Sync.collect_bonds e.1 ks ++ Sync.collect_bonds e.2 vs)) ∧
    (7, Structure.unicode.computeCid) ∈
      Sync.collect_bonds (.cmap [(.link 7, .unit)])
        (.map (.resolved none (.bond (.resolved none .unicode))) (.resolved none .unit)) := by
  constructor
  · intro entries ck cv ks vs
    constructor
    · rw [Sync.collect_bonds]
      exact Sync.collectMapEntries_eq entries ks vs
    · rw [Sync.collect_bonds]
      exact Sync.collectMapEntries_eq entries ks vs
  · show _ ∈ Sync.collect_bonds _ _
    simp [Sync.collect_bonds.eq_def, Sync.collectMapEntries.eq_def, SBond.cid,
      Structure.computeCid]

/-- **C8 counterexample**: the `traverse.rs` copy of `collect_bonds`
does not descend map keys.  On a map blob under the schema
`Map(Bond(Unicode), Bond(Unicode))` it emits only the value's link and
no key-derived pair, and its output is unchanged when the declared key
schema is replaced by `Unit` — the key schema is ignored ("For now we
only recurse into values", with `Ipld` map keys restricted to strings) —
while the sync-layer copy, on a corresponding blob with a link in key
position, emits the key's link under the same schema. -/
theorem traverse_collect_bonds_ignores_map_keys_counterexample :
    (Traverse.collect_bonds (Ipld.imap [(5, Ipld.link 9)])
        (.map (.resolved none (.bond (.resolved none .unicode)))
          (.resolved none (.bond (.resolved none .unicode)))) =
      [(9, Structure.unicode.computeCid)]) ∧
    (Traverse.collect_bonds (Ipld.imap [(5, Ipld.link 9)])
        (.map (.resolved none .unit)
          (.resolved none (.bond (.resolved none .unicode)))) =
      [(9, Structure.unicode.computeCid)]) ∧
    (Sync.collect_bonds (CborVal.cmap [(.link 7, .link 9)])
        (.map (.resolved none (.bond (.resolved none .unicode)))
          (.resolved none (.bond (.resolved none .unicode)))) =
      [(7, Structure.unicode.computeCid), (9, Structure.unicode.computeCid)]) := by
  refine ⟨?_, ?_, ?_⟩
  · simp [Traverse.collect_bonds.eq_def, Traverse.collectMapValues.eq_def, SBond.cid,
      Structure.computeCid]
  · simp [Traverse.collect_bonds.eq_def, Traverse.collectMapValues.eq_def, SBond.cid,
      Structure.computeCid]
  · simp [Sync.collect_bonds.eq_def, Sync.collectMapEntries.eq_def, SBond.cid,
      Structure.computeCid]

/-- **C10**: a cell constructed with a pre-supplied key never validates
it: `Cell::with_cid(v, k).cid()` returns `k` unchanged on every call
(the slot is already set, so `cid()` never recomputes it and leaves the
cell as constructed), and in general once the slot is set — at
construction or by a first `cid()` call — every further `cid()` call
returns the stored key without touching the value. -/
theorem cell_with_cid_never_validates :
    (∀ (v : Val) (k : Key), CellSt.cidCall (CellSt.with_cid v k) = (k, CellSt.with_cid v k)) ∧
    (∀ c : CellSt, CellSt.cidCall (CellSt.cidCall c).2 =
      ((CellSt.cidCall c).1, (CellSt.cidCall c).2)) := by
  constructor
  · intro v k
    rfl
  · intro c
    cases h : c.slot with
    | some k => simp [CellSt.cidCall, h]
    | none => simp [CellSt.cidCall, h]

/-- Helper for C7: pointwise form of `unresolveAll` on bond lists. -/
theorem encodeBonds_unresolve (bs : List BondV) :
    encodeBonds (Val.unresolveAll.unresolveBonds bs) = encodeBonds bs := by
  induction bs with
  | nil => rfl
  | cons b bs ih =>
    simp [Val.unresolveAll.unresolveBonds, encodeBonds, ih, BondV.cid]

/-- **C7**: a bond's encoding is its key alone in both states
(`Bond::serialize` emits `self.cid()`: the stored key when unresolved,
the cell's key when resolved); consequently a value's encoding and
computed key are unchanged when its bonds are replaced by unresolved
bonds with the same keys (resolving or unresolving is invisible to the
bytes); and deserializing bond bytes always yields the `Unresolved`
state carrying the serialized bond's key. -/
theorem bond_encoding_is_key_alone :
    (∀ (ty : Nat) (k : Key), BondV.serialize (.unresolved ty k) = .link k) ∧
    (∀ (cached : Option Key) (v : Val),
      BondV.serialize (.resolved cached v) = .link (BondV.cid (.resolved cached v))) ∧
    (∀ v : Val, encodeVal v.unresolveAll = encodeVal v ∧
      Val.computeCid v.unresolveAll = Val.computeCid v) ∧
    (∀ (ty : Nat) (b : BondV), BondV.deserialize ty b.serialize = some (.unresolved ty b.cid)) := by
  refine ⟨fun ty k => rfl, fun cached v => rfl, fun v => ?_, fun ty b => rfl⟩
  obtain ⟨t, p, bs⟩ := v
  constructor
  · simp [Val.unresolveAll, encodeVal, encodeBonds_unresolve]
  · simp [Val.computeCid, Val.unresolveAll, encodeVal, encodeBonds_unresolve]

end Polyepoxide


namespace Polyepoxide

/-! ## Claims C4 and C3 -/

/-- A three-deep bond chain `chainR → chainA → chainB`, interned whole. -/
def chainB : Val := Val.mk 0 2 []

def chainA : Val := Val.mk 0 1 [BondV.resolved none chainB]

def chainR : Val := Val.mk 0 0 [BondV.resolved none chainA]

def chainSolvent : Solvent := (Solvent.add chainR Solvent.empty).2

def chainCell : CellSt :=
  ⟨(Solvent.add chainR Solvent.empty).1.val, some (Solvent.add chainR Solvent.empty).1.cid⟩

def chainRun : Option ((Key × Key) × PersistSt) :=
  Solvent.persist_cell chainSolvent 100 chainCell Structure.unit PStore.empty

/-- **C4**: `persist_cell` on the chain writes, after the schema blob,
the blob of `chainA` *before* the blob of its own dependency `chainB`
(write order `[schema, A, B, R]`, while `A`'s blob links to `B`'s key):
`PersistingMapper::map_bond` stores a bond target before recursing into
its nested bonds, so children are *not* written before parents beyond
depth one, contradicting the documented dependency-first order. -/
theorem persist_write_order_parent_first :
    chainRun.map
      (fun out => (out.2.trace.map Prod.fst,
        out.2.trace.map fun e : Key × CborVal => cborLinks e.2)) =
    some ([Structure.unit.computeCid, chainA.computeCid, chainB.computeCid,
           chainR.computeCid],
          [[], [chainB.computeCid], [], [chainA.computeCid]]) := by
  rfl

/-- A value holding a dangling unresolved bond (target never interned),
itself held in a solvent. -/
def dangP : Val := Val.mk 0 0 [BondV.unresolved 9 999]

def dangSolvent : Solvent := (Solvent.add dangP Solvent.empty).2

def dangCell : CellSt :=
  ⟨(Solvent.add dangP Solvent.empty).1.val, some (Solvent.add dangP Solvent.empty).1.cid⟩

def dangRun : Option ((Key × Key) × PersistSt) :=
  Solvent.persist_cell dangSolvent 100 dangCell Structure.unit PStore.empty

/-- Counterexample to **C3** as stated: persisting a cell (held in a
solvent) whose value carries an unresolved bond to a key absent from the
solvent succeeds, writes the parent blob — whose links contain the
target key 999 — yet never writes 999: `PersistingMapper::map_bond`
silently skips targets the solvent cannot resolve, so a written key can
reach an absent one. -/
theorem persist_completeness_counterexample :
    dangRun.map
      (fun out => (out.2.trace.map Prod.fst,
        out.2.trace.map fun e : Key × CborVal => cborLinks e.2,
        out.2.store.hasKey dangP.computeCid,
        out.2.store.hasKey 999)) =
    some ([Structure.unit.computeCid, dangP.computeCid], [[], [999]], true, false) := by
  rfl

end Polyepoxide

namespace Polyepoxide

theorem lookupKey_mem {cells : List (Key × SCell)} {k : Key} {c : SCell}
    (h : lookupKey cells k = some c) : (k, c) ∈ cells := by
  induction cells with
  | nil => simp [lookupKey] at h
  | cons e rest ih =>
    obtain ⟨k0, c0⟩ := e
    by_cases hk : k0 = k
    · subst hk
      simp only [lookupKey, if_pos rfl] at h
      injection h with h'
      subst h'
      exact List.mem_cons_self _ _
    · simp only [lookupKey, if_neg hk] at h
      exact List.mem_cons_of_mem _ (ih h)

theorem PStore.hasKey_put_self (st : PStore) (k : Key) (b : CborVal) :
    (st.put k b).hasKey k = true := by
  show (lookupBlob (insertBlob st.blobs k b) k).isSome = true
  induction st.blobs with
  | nil => simp [insertBlob, lookupBlob]
  | cons e rest ih =>
    obtain ⟨k0, b0⟩ := e
    by_cases hk : k0 = k
    · subst hk
      simp [insertBlob, lookupBlob]
    · simpa [insertBlob, lookupBlob, hk] using ih

theorem lookupBlob_insert_mono {blobs : List (Key × CborVal)} {k' : Key} (k : Key)
    (b : CborVal) (h : (lookupBlob blobs k').isSome = true) :
    (lookupBlob (insertBlob blobs k b) k').isSome = true := by
  induction blobs with
  | nil => simp [lookupBlob] at h
  | cons e rest ih =>
    obtain ⟨k0, b0⟩ := e
    by_cases hk : k0 = k
    · subst hk
      by_cases hk' : k0 = k'
      · subst hk'
        simp [insertBlob, lookupBlob]
      · simp only [lookupBlob, if_neg hk'] at h
        simpa [insertBlob, lookupBlob, hk'] using h
    · by_cases hk' : k0 = k'
      · subst hk'
        simp [insertBlob, hk, lookupBlob]
      · simp only [lookupBlob, if_neg hk'] at h
        simp only [insertBlob, if_neg hk, lookupBlob, if_neg hk']
        exact ih h

theorem PStore.hasKey_put_mono {st : PStore} {k' : Key} (k : Key) (b : CborVal)
    (h : st.hasKey k' = true) : (st.put k b).hasKey k' = true :=
  lookupBlob_insert_mono k b h

theorem cborLinks_encodeVal (v : Val) :
    cborLinks (encodeVal v) = v.bonds.map BondV.cid := by
  obtain ⟨ty, p, bs⟩ := v
  show cborLinks (encodeVal (Val.mk ty p bs)) = bs.map BondV.cid
  have : ∀ l : List BondV, cborLinksList (encodeBonds l) = l.map BondV.cid := by
    intro l
    induction l with
    | nil => rfl
    | cons b rest ih => simp [encodeBonds, cborLinksList, cborLinks, ih]
  simp [encodeVal, cborLinks, cborLinksList, cborLinksEntries, this]

/-- Every bond in the list resolves in the solvent under its expected
type. -/
def ResolvableList (s : Solvent) (bs : List BondV) : Prop :=
  ∀ b ∈ bs, ∃ c, lookupKey s.cells (BondV.cid b) = some c ∧ c.ty = BondV.bty b

theorem bondsResolvable_iff (s : Solvent) (v : Val) :
    Solvent.bondsResolvable s v = true ↔ ResolvableList s v.bonds := by
  rw [Solvent.bondsResolvable, List.all_eq_true]
  constructor
  · intro h b hb
    have := h b hb
    cases hl : lookupKey s.cells (BondV.cid b) with
    | none => rw [hl] at this; exact absurd this (by simp)
    | some c =>
      rw [hl] at this
      simp only [decide_eq_true_eq] at this
      exact ⟨c, rfl, this⟩
  · intro h b hb
    obtain ⟨c, hc, hty⟩ := h b hb
    rw [hc]
    simpa using hty

end Polyepoxide

namespace Polyepoxide

/-- Postconditions of the `PersistingMapper` loop: the store grows
monotonically, visited keys are monotone, the trace is only appended and
every new entry's links end up visited, every bond of the processed list
ends up visited, and every visited key is written except possibly the
pending `root` (the value whose `persist_value` frame is still open). -/
theorem Solvent.persistBonds_post (s : Solvent)
    (hA : ∀ e ∈ s.cells, ResolvableList s e.2.val.bonds) (root : Key) :
    ∀ (fuel : Nat) (bs : List BondV) (st : PersistSt),
      ResolvableList s bs →
      (∀ k ∈ st.visited, st.store.hasKey k = true ∨ k = root) →
      ∀ st', Solvent.persistBonds s fuel bs st = some st' →
        (∀ k, st.store.hasKey k = true → st'.store.hasKey k = true) ∧
        (∀ k ∈ st.visited, k ∈ st'.visited) ∧
        (∃ tNew, st'.trace = st.trace ++ tNew ∧
          ∀ p ∈ tNew, ∀ x ∈ cborLinks p.2, x ∈ st'.visited) ∧
        (∀ b ∈ bs, BondV.cid b ∈ st'.visited) ∧
        (∀ k ∈ st'.visited, st'.store.hasKey k = true ∨ k = root) := by
  intro fuel
  induction fuel with
  | zero =>
    intro bs st _ _ st' h
    simp [Solvent.persistBonds] at h
  | succ fuel ih =>
    intro bs st hres hvis st' h
    cases bs with
    | nil =>
      simp only [Solvent.persistBonds] at h
      injection h with h'
      subst h'
      exact ⟨fun k hk => hk, fun k hk => hk, ⟨[], by simp, by simp⟩, by simp, hvis⟩
    | cons b rest =>
      rw [Solvent.persistBonds] at h
      by_cases hv : BondV.cid b ∈ st.visited
      · rw [if_pos hv] at h
        obtain ⟨m1, m2, m3, m4, m5⟩ :=
          ih rest st (fun b' hb' => hres b' (List.mem_cons_of_mem _ hb')) hvis st' h
        refine ⟨m1, m2, m3, ?_, m5⟩
        intro b' hb'
        rcases List.mem_cons.mp hb' with h1 | h2
        · rw [h1]
          exact m2 _ hv
        · exact m4 _ h2
      · rw [if_neg hv] at h
        obtain ⟨c, hc, hcty⟩ := hres b (List.mem_cons_self _ _)
        have hget : Solvent.get s (BondV.bty b) (BondV.cid b) = some c := by
          simp only [Solvent.get, hc]
          rw [if_pos hcty]
        simp only [hget] at h
        set st2 : PersistSt :=
          ⟨st.store.put (BondV.cid b) (encodeVal c.val),
           st.trace ++ [(BondV.cid b, encodeVal c.val)],
           BondV.cid b :: st.visited⟩ with hst2
        cases hnb : Solvent.persistBonds s fuel c.val.bonds st2 with
        | none =>
          rw [hnb] at h
          exact absurd h (by simp)
        | some st3 =>
          rw [hnb] at h
          have hst2vis : ∀ k ∈ st2.visited, st2.store.hasKey k = true ∨ k = root := by
            intro k hk
            simp only [hst2] at hk ⊢
            rcases List.mem_cons.mp hk with h1 | h2
            · rw [h1]
              exact Or.inl (PStore.hasKey_put_self _ _ _)
            · rcases hvis k h2 with h3 | h3
              · exact Or.inl (PStore.hasKey_put_mono _ _ h3)
              · exact Or.inr h3
          have hcres : ResolvableList s c.val.bonds := hA _ (lookupKey_mem hc)
          obtain ⟨n1, n2, ⟨t1, ht1, ht1l⟩, n4, n5⟩ := ih c.val.bonds st2 hcres hst2vis st3 hnb
          obtain ⟨r1, r2, ⟨t2, ht2, ht2l⟩, r4, r5⟩ :=
            ih rest st3 (fun b' hb' => hres b' (List.mem_cons_of_mem _ hb')) n5 st' h
          refine ⟨?_, ?_, ?_, ?_, r5⟩
          · intro k hk
            refine r1 k (n1 k ?_)
            simp only [hst2]
            exact PStore.hasKey_put_mono _ _ hk
          · intro k hk
            refine r2 k (n2 k ?_)
            simp only [hst2]
            exact List.mem_cons_of_mem _ hk
          · refine ⟨(BondV.cid b, encodeVal c.val) :: (t1 ++ t2), ?_, ?_⟩
            · rw [ht2, ht1, hst2]
              simp
            · intro p hp
              rcases List.mem_cons.mp hp with h1 | h2
              · subst h1
                intro x hx
                rw [cborLinks_encodeVal] at hx
                obtain ⟨b', hb', hx'⟩ := List.mem_map.mp hx
                rw [← hx']
                exact r2 _ (n4 b' hb')
              · rcases List.mem_append.mp h2 with h3 | h4
                · intro x hx
                  exact r2 _ (ht1l p h3 x hx)
                · exact ht2l p h4
          · intro b' hb'
            rcases List.mem_cons.mp hb' with h1 | h2
            · rw [h1]
              refine r2 _ (n2 _ ?_)
              simp only [hst2]
              exact List.mem_cons_self _ _
            · exact r4 _ h2

end Polyepoxide

namespace Polyepoxide

/-- Postconditions of `persist_value` when every previously visited key
is already written: afterwards every visited key is written (the root
included), and every new trace entry's links are visited. -/
theorem Solvent.persist_value_post (s : Solvent)
    (hA : ∀ e ∈ s.cells, ResolvableList s e.2.val.bonds) (v : Val)
    (hv : ResolvableList s v.bonds) :
    ∀ (fuel : Nat) (st : PersistSt),
      (∀ k ∈ st.visited, st.store.hasKey k = true) →
      ∀ st', Solvent.persist_value s fuel v st = some st' →
        (∀ k, st.store.hasKey k = true → st'.store.hasKey k = true) ∧
        (∀ k ∈ st.visited, k ∈ st'.visited) ∧
        (∃ tNew, st'.trace = st.trace ++ tNew ∧
          ∀ p ∈ tNew, ∀ x ∈ cborLinks p.2, x ∈ st'.visited) ∧
        (∀ k ∈ st'.visited, st'.store.hasKey k = true) := by
  intro fuel st hst st' h
  rw [Solvent.persist_value] at h
  by_cases hvv : v.computeCid ∈ st.visited
  · rw [if_pos hvv] at h
    injection h with h'
    subst h'
    exact ⟨fun k hk => hk, fun k hk => hk, ⟨[], by simp, by simp⟩, hst⟩
  · rw [if_neg hvv] at h
    simp only [] at h
    set st1 : PersistSt := ⟨st.store, st.trace, v.computeCid :: st.visited⟩ with hst1
    cases hnb : Solvent.persistBonds s fuel v.bonds st1 with
    | none =>
      rw [hnb] at h
      exact absurd h (by simp)
    | some st2 =>
      rw [hnb] at h
      injection h with h'
      have hst1vis : ∀ k ∈ st1.visited, st1.store.hasKey k = true ∨ k = v.computeCid := by
        intro k hk
        simp only [hst1] at hk ⊢
        rcases List.mem_cons.mp hk with h1 | h2
        · exact Or.inr h1
        · exact Or.inl (hst k h2)
      obtain ⟨n1, n2, ⟨t1, ht1, ht1l⟩, n4, n5⟩ :=
        Solvent.persistBonds_post s hA v.computeCid fuel v.bonds st1 hv hst1vis st2 hnb
      subst h'
      refine ⟨?_, ?_, ?_, ?_⟩
      · intro k hk
        exact PStore.hasKey_put_mono _ _ (n1 k hk)
      · intro k hk
        exact n2 k (by simp only [hst1]; exact List.mem_cons_of_mem _ hk)
      · refine ⟨t1 ++ [(v.computeCid, encodeVal v)], ?_, ?_⟩
        · rw [ht1, hst1]
          simp
        · intro p hp
          rcases List.mem_append.mp hp with h1 | h2
          · intro x hx
            exact ht1l p h1 x hx
          · rcases List.mem_singleton.mp h2 with h3
            subst h3
            intro x hx
            rw [cborLinks_encodeVal] at hx
            obtain ⟨b', hb', hx'⟩ := List.mem_map.mp hx
            rw [← hx']
            exact n4 b' hb'
      · intro k hk
        rcases n5 k hk with h1 | h1
        · exact PStore.hasKey_put_mono _ _ h1
        · rw [h1]
          exact PStore.hasKey_put_self _ _ _

/-- The key of the cell returned by `SchemaSolvent.add` is the cid of
the structure given to it. -/
theorem SchemaSolvent.add_fst (s0 : Structure) (sv : SchemaSolvent) :
    (SchemaSolvent.add s0 sv).1.1 = s0.computeCid := by
  cases s0
  all_goals {
    simp only [SchemaSolvent.add]
    split
    all_goals rfl
  }

theorem schema_fold_spec (ents : List (Key × Structure)) :
    ∀ st0 : PersistSt,
      (∀ k, st0.store.hasKey k = true →
        (ents.foldl (fun (st : PersistSt) e =>
          ⟨st.store.put e.1 (encodeS e.2), st.trace ++ [(e.1, encodeS e.2)],
           e.1 :: st.visited⟩) st0).store.hasKey k = true) ∧
      (∀ e ∈ ents,
        (ents.foldl (fun (st : PersistSt) e =>
          ⟨st.store.put e.1 (encodeS e.2), st.trace ++ [(e.1, encodeS e.2)],
           e.1 :: st.visited⟩) st0).store.hasKey e.1 = true) ∧
      ((ents.foldl (fun (st : PersistSt) e =>
          ⟨st.store.put e.1 (encodeS e.2), st.trace ++ [(e.1, encodeS e.2)],
           e.1 :: st.visited⟩) st0).trace =
        st0.trace ++ ents.map (fun e => (e.1, encodeS e.2))) ∧
      (∀ k, k ∈ (ents.foldl (fun (st : PersistSt) e =>
          ⟨st.store.put e.1 (encodeS e.2), st.trace ++ [(e.1, encodeS e.2)],
           e.1 :: st.visited⟩) st0).visited ↔
        (k ∈ st0.visited ∨ k ∈ ents.map Prod.fst)) := by
  induction ents with
  | nil =>
    intro st0
    refine ⟨fun k hk => by simpa using hk, by simp, by simp, fun k => by simp⟩
  | cons e rest ih =>
    intro st0
    obtain ⟨ke, se⟩ := e
    obtain ⟨i1, i2, i3, i4⟩ := ih
      ⟨st0.store.put ke (encodeS se), st0.trace ++ [(ke, encodeS se)], ke :: st0.visited⟩
    refine ⟨?_, ?_, ?_, ?_⟩
    · intro k hk
      simp only [List.foldl_cons]
      exact i1 k (PStore.hasKey_put_mono _ _ hk)
    · intro e' he'
      simp only [List.foldl_cons]
      rcases List.mem_cons.mp he' with h1 | h2
      · subst h1
        exact i1 _ (PStore.hasKey_put_self _ _ _)
      · exact i2 e' h2
    · simp only [List.foldl_cons]
      rw [i3]
      simp
    · intro k
      simp only [List.foldl_cons]
      rw [i4 k]
      simp only [List.map_cons, List.mem_cons]
      tauto

end Polyepoxide

namespace Polyepoxide

/-- **C3 (amended)**: persist completeness.  For a cell held in a
solvent, `persist_cell` returns `(cell.cid(), key of T::schema())`; and
*provided* the schema tree is fully resolved (as every `T::schema()` is)
and every bond reachable in the solvent — including the cell's own
bonds — resolves to an interned cell of its expected type, every key
written during the call reaches only keys present in the store when the
call returns.  (Without the resolvability proviso the property fails:
`PersistingMapper` silently skips unresolvable targets, see the
counterexample.) -/
theorem persist_completeness_amended :
    ∀ (s : Solvent) (fuel : Nat) (cell : CellSt) (sch : Structure) (store0 : PStore)
      (out : (Key × Key) × PersistSt),
      Structure.allResolved sch = true →
      Solvent.closed s = true →
      Solvent.bondsResolvable s cell.value = true →
      Solvent.persist_cell s fuel cell sch store0 = some out →
      out.1 = ((CellSt.cidCall cell).1, Structure.computeCid sch) ∧
      ∀ p ∈ out.2.trace, ∀ x ∈ cborLinks p.2, out.2.store.hasKey x = true := by
  intro s fuel cell sch store0 out hres hclosed hcell h
  have hA : ∀ e ∈ s.cells, ResolvableList s e.2.val.bonds := by
    intro e he
    have := (List.all_eq_true.mp hclosed) e he
    simpa using (bondsResolvable_iff s e.2.val).mp (by simpa using this)
  have hv : ResolvableList s cell.value.bonds := (bondsResolvable_iff s cell.value).mp hcell
  rw [Solvent.persist_cell] at h
  have hclosedS : SchemaClosed (SchemaSolvent.add sch SchemaSolvent.empty).2 := by
    have hempty : SchemaClosed SchemaSolvent.empty := by
      intro e he
      simp [SchemaSolvent.empty] at he
    exact (((schemaSolvent_add_post sch) SchemaSolvent.empty).2 hres hempty).1
  obtain ⟨f1, f2, f3, f4⟩ := schema_fold_spec (SchemaSolvent.add sch SchemaSolvent.empty).2.cells
    ⟨store0, [], []⟩
  set st1 := (SchemaSolvent.add sch SchemaSolvent.empty).2.cells.foldl
    (fun (st : PersistSt) e =>
      ⟨st.store.put e.1 (encodeS e.2), st.trace ++ [(e.1, encodeS e.2)], e.1 :: st.visited⟩)
    ⟨store0, [], []⟩ with hst1
  have hst1vis : ∀ k ∈ st1.visited, st1.store.hasKey k = true := by
    intro k hk
    have := (f4 k).mp hk
    rcases this with h1 | h2
    · simp at h1
    · obtain ⟨e, he, he'⟩ := List.mem_map.mp h2
      rw [← he']
      exact f2 e he
  cases hpv : Solvent.persist_value s fuel cell.value st1 with
  | none =>
    rw [hpv] at h
    exact absurd h (by simp)
  | some st2 =>
    rw [hpv] at h
    injection h with h'
    subst h'
    obtain ⟨p1, p2, ⟨tNew, htn, htnl⟩, p4⟩ :=
      Solvent.persist_value_post s hA cell.value hv fuel st1 hst1vis st2 hpv
    constructor
    · simp [SchemaSolvent.add_fst]
    · intro p hp x hx
      have hx' : x ∈ st2.visited := by
        rw [htn] at hp
        rcases List.mem_append.mp hp with h1 | h2
        · rw [f3] at h1
          simp only [List.nil_append] at h1
          obtain ⟨e, he, he'⟩ := List.mem_map.mp h1
          have hlinks : cborLinks p.2 ⊆ svKeys (SchemaSolvent.add sch SchemaSolvent.empty).2 :=
            by rw [← he']; exact hclosedS e he
          have : x ∈ svKeys (SchemaSolvent.add sch SchemaSolvent.empty).2 := hlinks hx
          refine p2 x ((f4 x).mpr (Or.inr ?_))
          exact this
        · exact htnl p h2 x hx
      exact p4 x hx'

end Polyepoxide

namespace Polyepoxide

def chainOut : (Key × Key) × PersistSt := chainRun.get (by rfl)

/-- Witness for the amended C3 on the concrete chain example. -/
theorem persist_completeness_amended_witness :
    chainOut.1 = ((CellSt.cidCall chainCell).1, Structure.computeCid Structure.unit) ∧
    ∀ p ∈ chainOut.2.trace, ∀ x ∈ cborLinks p.2, chainOut.2.store.hasKey x = true :=
  persist_completeness_amended chainSolvent 100 chainCell Structure.unit PStore.empty
    chainOut rfl rfl rfl (Option.some_get (by rfl)).symm

end Polyepoxide

namespace Polyepoxide

/-! ## Sync (model of `pull` / `pull_recursive` / `ensure_schema` in `sync.rs`)

Both stores are infallible `MemoryStore`s, so the `Source`/`Dest` error
wrappers cannot arise; the model adds `outOfFuel` for exhausted fuel.
Every store interaction on `source`/`dest` is logged as one `Event` in
order, so write-order and fetch claims can be stated over the trace.  A
run returns its final state *and* an optional error, because writes to
`dest` performed before a failure persist. -/

inductive Event : Type where
  /-- `dest.async_has(value_key)` in `pull_recursive`, with its result. -/
  | hasVal (k : Key) (r : Bool)
  /-- `source.async_get(value_key)` in `pull_recursive`. -/
  | getVal (k : Key)
  /-- `dest.async_put(value_key, bytes)`; records the blob and the
  schema structure used to collect its bonds. -/
  | putVal (k : Key) (blob : CborVal) (sch : Structure)
  /-- `dest.async_has(key)` in `ensure_schema`, with its result. -/
  | hasSch (k : Key) (r : Bool)
  /-- `source.async_get(key)` in `ensure_schema`. -/
  | getSch (k : Key)
  /-- `dest.async_put(key, bytes)` in `ensure_schema`. -/
  | putSch (k : Key) (blob : CborVal)

/-- Schema-layer events (those issued by `ensure_schema`). -/
def Event.isSch : Event → Bool
  | .hasSch _ _ => true
  | .getSch _ => true
  | .putSch _ _ => true
  | _ => false

/-- `SyncError` (without the store-error wrappers, impossible for
`MemoryStore`), plus the fuel artifact of the model. -/
inductive SyncError : Type where
  | notFound (k : Key)
  | format
  | outOfFuel

structure PullSt where
  dest : PStore
  schemas : SchemaSolvent
  transferred : List Key
  trace : List Event

def PullSt.log (st : PullSt) (e : Event) : PullSt :=
  {st with trace := st.trace ++ [e]}

/-- A `dest.async_put` plus `transferred.push`, with its trace event. -/
def PullSt.write (st : PullSt) (k : Key) (b : CborVal) (e : Event) : PullSt :=
  {st with dest := st.dest.put k b, trace := st.trace ++ [e],
           transferred := st.transferred ++ [k]}

/-- The nested schema keys `ensure_nested_schemas` walks, by case. -/
def nestedKeys : Structure → List Key
  | .sequence b => [SBond.cid b]
  | .bond b => [SBond.cid b]
  | .tuple bs => bs.map SBond.cid
  | .record fs => fs.map (fun e => SBond.cid e.2)
  | .tagged fs => fs.map (fun e => SBond.cid e.2)
  | .map k v => [SBond.cid k, SBond.cid v]
  | .orderedMap k v => [SBond.cid k, SBond.cid v]
  | _ => []

mutual

/-- `pull_recursive`: skip if dest has the key; ensure the schema; fetch
the value from source; collect bonds; pull each child; then store the
value. -/
def pull_recursive (source : PStore) : Nat → Key → Key → PullSt →
    PullSt × Option SyncError
  | 0, _, _, st => (st, some .outOfFuel)
  | fuel + 1, value_key, schema_key, st =>
    let h := st.dest.hasKey value_key
    let st0 := st.log (.hasVal value_key h)
    if h then (st0, none)
    else
      match ensure_schema source fuel schema_key st0 with
      | (st1, .inl e) => (st1, some e)
      | (st1, .inr cell) =>
        let st2 := st1.log (.getVal value_key)
        match source.get value_key with
        | none => (st2, some (.notFound value_key))
        | some bytes =>
          let bonds := Sync.collect_bonds bytes cell.2
          match pull_list source fuel bonds st2 with
          | (st3, some e) => (st3, some e)
          | (st3, none) =>
            (st3.write value_key bytes (.putVal value_key bytes cell.2), none)

/-- The child loop of `pull_recursive`. -/
def pull_list (source : PStore) : Nat → List (Key × Key) → PullSt →
    PullSt × Option SyncError
  | 0, _, st => (st, some .outOfFuel)
  | _ + 1, [], st => (st, none)
  | fuel + 1, (ck, cs) :: rest, st =>
    match pull_recursive source fuel ck cs st with
    | (st1, some e) => (st1, some e)
    | (st1, none) => pull_list source fuel rest st1

/-- `ensure_schema`: return the interned cell if the schema solvent has
the key; otherwise check dest, fetch the blob from source (always!),
store it at dest only if dest lacked it, parse it, ensure the nested
schemas, and intern. -/
def ensure_schema (source : PStore) : Nat → Key → PullSt →
    PullSt × (SyncError ⊕ (Key × Structure))
  | 0, _, st => (st, .inl .outOfFuel)
  | fuel + 1, key, st =>
    match st.schemas.get key with
    | some c => (st, .inr (key, c))
    | none =>
      let dh := st.dest.hasKey key
      let st1 := st.log (.hasSch key dh)
      let st2 := st1.log (.getSch key)
      match source.get key with
      | none => (st2, .inl (.notFound key))
      | some bytes =>
        let st3 := if dh then st2 else st2.write key bytes (.putSch key bytes)
        match parseS bytes with
        | none => (st3, .inl .format)
        | some schema =>
          match ensure_nested_schemas source fuel schema st3 with
          | (st4, some e) => (st4, .inl e)
          | (st4, none) =>
            let r := SchemaSolvent.add schema st4.schemas
            ({st4 with schemas := r.2}, .inr r.1)

/-- `ensure_nested_schemas`: ensure each nested schema bond key not yet
in the solvent. -/
def ensure_nested_schemas (source : PStore) (fuel : Nat) (schema : Structure)
    (st : PullSt) : PullSt × Option SyncError :=
  ensure_list source fuel (nestedKeys schema) st

def ensure_list (source : PStore) : Nat → List Key → PullSt →
    PullSt × Option SyncError
  | 0, _, st => (st, some .outOfFuel)
  | _ + 1, [], st => (st, none)
  | fuel + 1, k :: ks, st =>
    if (st.schemas.get k).isSome then ensure_list source fuel ks st
    else
      match ensure_schema source fuel k st with
      | (st1, .inl e) => (st1, some e)
      | (st1, .inr _) => ensure_list source fuel ks st1

end

/-- `pull`: fresh transferred list and schema solvent, then recurse. -/
def pull (fuel : Nat) (source dest : PStore) (value_key schema_key : Key) :
    PullSt × Option SyncError :=
  pull_recursive source fuel value_key schema_key ⟨dest, SchemaSolvent.empty, [], []⟩

/-- Replay the dest-store writes of a trace. -/
def applyEvents (d : PStore) : List Event → PStore
  | [] => d
  | .putVal k b _ :: t => applyEvents (d.put k b) t
  | .putSch k b :: t => applyEvents (d.put k b) t
  | .hasVal _ _ :: t => applyEvents d t
  | .getVal _ :: t => applyEvents d t
  | .hasSch _ _ :: t => applyEvents d t
  | .getSch _ :: t => applyEvents d t

end Polyepoxide

namespace Polyepoxide

/-- Post-order write discipline for value blobs: whenever the trace puts
a value blob, every bond target collected from that blob under its
schema is already present in dest at that moment. -/
def PostOrderOK (d0 : PStore) (t : List Event) : Prop :=
  ∀ t1 k b s t2, t = t1 ++ Event.putVal k b s :: t2 →
    ∀ p ∈ Sync.collect_bonds b s, (applyEvents d0 t1).hasKey p.1 = true

/-- Fetch discipline for value blobs: every `source.get` of a value key
is preceded, with only schema-layer events between, by a dest `has`
check that returned false for that key. -/
def FetchGuardOK (t : List Event) : Prop :=
  ∀ t1 k t2, t = t1 ++ Event.getVal k :: t2 →
    ∃ t1a t1b, t1 = t1a ++ Event.hasVal k false :: t1b ∧
      ∀ e ∈ t1b, Event.isSch e = true

theorem snoc_decomp {α : Type} {t t1 t2 : List α} {x e : α}
    (h : t ++ [e] = t1 ++ x :: t2) :
    (t1 = t ∧ x = e ∧ t2 = []) ∨ ∃ t2', t2 = t2' ++ [e] ∧ t = t1 ++ x :: t2' := by
  rcases List.eq_nil_or_concat t2 with h2 | ⟨t2', y, h2⟩
  · subst h2
    have hp := List.append_inj' h (by simp)
    refine Or.inl ⟨hp.1.symm, ?_, rfl⟩
    injection hp.2 with h3
    exact h3.symm
  · subst h2
    have hh : t ++ [e] = (t1 ++ x :: t2') ++ [y] := by
      rw [h, List.concat_eq_append]
      simp
    have hp := List.append_inj' hh (by simp)
    refine Or.inr ⟨t2', ?_, hp.1⟩
    injection hp.2 with h3
    rw [List.concat_eq_append, h3]

theorem applyEvents_append (d : PStore) (t t' : List Event) :
    applyEvents d (t ++ t') = applyEvents (applyEvents d t) t' := by
  induction t generalizing d with
  | nil => rfl
  | cons e rest ih => cases e <;> simp [applyEvents, ih]

theorem postOrder_nil (d0 : PStore) : PostOrderOK d0 [] := by
  intro t1 k b s t2 h
  exact absurd h (by simp)

theorem fetchGuard_nil : FetchGuardOK [] := by
  intro t1 k t2 h
  exact absurd h (by simp)

theorem postOrder_snoc_nonput {d0 : PStore} {t : List Event} {e : Event}
    (h : PostOrderOK d0 t) (he : ∀ k b s, e ≠ Event.putVal k b s) :
    PostOrderOK d0 (t ++ [e]) := by
  intro t1 k b s t2 hdec
  rcases snoc_decomp hdec with ⟨h1, h2, _⟩ | ⟨t2', _, h3⟩
  · exact absurd h2.symm (he k b s)
  · exact h t1 k b s t2' h3

theorem postOrder_snoc_put {d0 : PStore} {t : List Event} {k : Key} {b : CborVal}
    {s : Structure} (h : PostOrderOK d0 t)
    (hk : ∀ p ∈ Sync.collect_bonds b s, (applyEvents d0 t).hasKey p.1 = true) :
    PostOrderOK d0 (t ++ [Event.putVal k b s]) := by
  intro t1 k' b' s' t2 hdec
  rcases snoc_decomp hdec with ⟨h1, h2, _⟩ | ⟨t2', _, h3⟩
  · subst h1
    injection h2.symm with e1 e2 e3
    subst e2
    subst e3
    exact hk
  · exact h t1 k' b' s' t2' h3

theorem postOrder_append_nonput {d0 : PStore} {t tN : List Event}
    (h : PostOrderOK d0 t) (hN : ∀ e ∈ tN, ∀ k b s, e ≠ Event.putVal k b s) :
    PostOrderOK d0 (t ++ tN) := by
  induction tN generalizing t with
  | nil => simpa using h
  | cons e rest ih =>
    have step : t ++ e :: rest = (t ++ [e]) ++ rest := by simp
    rw [step]
    exact ih (postOrder_snoc_nonput h (hN e (List.mem_cons_self _ _)))
      (fun e' he' => hN e' (List.mem_cons_of_mem _ he'))

theorem fetchGuard_snoc_nonget {t : List Event} {e : Event}
    (h : FetchGuardOK t) (he : ∀ k, e ≠ Event.getVal k) :
    FetchGuardOK (t ++ [e]) := by
  intro t1 k t2 hdec
  rcases snoc_decomp hdec with ⟨h1, h2, _⟩ | ⟨t2', _, h3⟩
  · exact absurd h2.symm (he k)
  · exact h t1 k t2' h3

theorem fetchGuard_snoc_get {t : List Event} {k : Key}
    (h : FetchGuardOK t)
    (hshape : ∃ t1a t1b, t = t1a ++ Event.hasVal k false :: t1b ∧
      ∀ e ∈ t1b, Event.isSch e = true) :
    FetchGuardOK (t ++ [Event.getVal k]) := by
  intro t1 k' t2 hdec
  rcases snoc_decomp hdec with ⟨h1, h2, _⟩ | ⟨t2', _, h3⟩
  · subst h1
    injection h2.symm with e1
    subst e1
    exact hshape
  · exact h t1 k' t2' h3

theorem fetchGuard_append_sch {t tN : List Event}
    (h : FetchGuardOK t) (hN : ∀ e ∈ tN, Event.isSch e = true) :
    FetchGuardOK (t ++ tN) := by
  induction tN generalizing t with
  | nil => simpa using h
  | cons e rest ih =>
    have step : t ++ e :: rest = (t ++ [e]) ++ rest := by simp
    rw [step]
    refine ih (fetchGuard_snoc_nonget h ?_) (fun e' he' => hN e' (List.mem_cons_of_mem _ he'))
    intro k he
    have := hN e (List.mem_cons_self _ _)
    rw [he] at this
    simp [Event.isSch] at this

/-- Schema-layer events never write value blobs. -/
theorem sch_not_putVal {e : Event} (h : Event.isSch e = true) :
    ∀ k b s, e ≠ Event.putVal k b s := by
  intro k b s he
  rw [he] at h
  simp [Event.isSch] at h

end Polyepoxide
namespace Polyepoxide

/-- The dest store of a run state is exactly the replay of its trace. -/
def SyncInv (d0 : PStore) (st : PullSt) : Prop :=
  st.dest = applyEvents d0 st.trace

/-- What one call in the schema layer guarantees: the trace grows by
schema events only, dest keys are preserved, and the trace/dest replay
invariant is maintained. -/
def SchStep (d0 : PStore) (st st' : PullSt) : Prop :=
  (∃ tN, st'.trace = st.trace ++ tN ∧ ∀ e ∈ tN, Event.isSch e = true) ∧
  (∀ k, st.dest.hasKey k = true → st'.dest.hasKey k = true) ∧
  (SyncInv d0 st → SyncInv d0 st')

/-- What one call in the value layer guarantees: trace extension, dest
monotonicity, replay invariant, and preservation of the two trace
disciplines. -/
def GoodStep (d0 : PStore) (st st' : PullSt) : Prop :=
  (∃ tN, st'.trace = st.trace ++ tN) ∧
  (∀ k, st.dest.hasKey k = true → st'.dest.hasKey k = true) ∧
  (SyncInv d0 st → SyncInv d0 st') ∧
  (SyncInv d0 st → PostOrderOK d0 st.trace → PostOrderOK d0 st'.trace) ∧
  (FetchGuardOK st.trace → FetchGuardOK st'.trace)

theorem SchStep.schRefl (d0 : PStore) (st : PullSt) : SchStep d0 st st :=
  ⟨⟨[], by simp, by simp⟩, fun _ h => h, fun h => h⟩

theorem SchStep.schTrans {d0 : PStore} {st st' st'' : PullSt}
    (h1 : SchStep d0 st st') (h2 : SchStep d0 st' st'') : SchStep d0 st st'' := by
  obtain ⟨⟨u1, hu1, hs1⟩, m1, i1⟩ := h1
  obtain ⟨⟨u2, hu2, hs2⟩, m2, i2⟩ := h2
  refine ⟨⟨u1 ++ u2, by rw [hu2, hu1, List.append_assoc], ?_⟩,
    fun k hk => m2 k (m1 k hk), fun h => i2 (i1 h)⟩
  intro e he
  rcases List.mem_append.1 he with h | h
  · exact hs1 e h
  · exact hs2 e h

theorem SchStep.log_hasSch {d0 : PStore} {st : PullSt} {k : Key} {r : Bool} :
    SchStep d0 st (st.log (.hasSch k r)) := by
  refine ⟨⟨[.hasSch k r], rfl, by simp [Event.isSch]⟩, fun _ h => h, ?_⟩
  intro h
  show st.dest = applyEvents d0 (st.trace ++ [Event.hasSch k r])
  rw [applyEvents_append, ← h]
  rfl

theorem SchStep.log_getSch {d0 : PStore} {st : PullSt} {k : Key} :
    SchStep d0 st (st.log (.getSch k)) := by
  refine ⟨⟨[.getSch k], rfl, by simp [Event.isSch]⟩, fun _ h => h, ?_⟩
  intro h
  show st.dest = applyEvents d0 (st.trace ++ [Event.getSch k])
  rw [applyEvents_append, ← h]
  rfl

theorem SchStep.write_putSch {d0 : PStore} {st : PullSt} {k : Key} {b : CborVal} :
    SchStep d0 st (st.write k b (.putSch k b)) := by
  refine ⟨⟨[.putSch k b], rfl, by simp [Event.isSch]⟩,
    fun k' hk => PStore.hasKey_put_mono k b hk, ?_⟩
  intro h
  show st.dest.put k b = applyEvents d0 (st.trace ++ [Event.putSch k b])
  rw [applyEvents_append, ← h]
  rfl

theorem SchStep.schemas_only {d0 : PStore} {st st' : PullSt} {ss : SchemaSolvent}
    (h : SchStep d0 st st') : SchStep d0 st {st' with schemas := ss} :=
  h

/-- A schema-layer step is in particular a good value-layer step: schema
events are neither `putVal` nor `getVal`, so both disciplines survive. -/
theorem SchStep.goodStep {d0 : PStore} {st st' : PullSt}
    (h : SchStep d0 st st') : GoodStep d0 st st' := by
  obtain ⟨⟨tN, htN, hsch⟩, m, i⟩ := h
  refine ⟨⟨tN, htN⟩, m, i, ?_, ?_⟩
  · intro _ hpo
    rw [htN]
    exact postOrder_append_nonput hpo (fun e he => sch_not_putVal (hsch e he))
  · intro hfg
    rw [htN]
    exact fetchGuard_append_sch hfg hsch

theorem GoodStep.goodRefl (d0 : PStore) (st : PullSt) : GoodStep d0 st st :=
  ⟨⟨[], by simp⟩, fun _ h => h, fun h => h, fun _ h => h, fun h => h⟩

theorem GoodStep.goodTrans {d0 : PStore} {st st' st'' : PullSt}
    (h1 : GoodStep d0 st st') (h2 : GoodStep d0 st' st'') : GoodStep d0 st st'' := by
  obtain ⟨⟨u1, hu1⟩, m1, i1, p1, f1⟩ := h1
  obtain ⟨⟨u2, hu2⟩, m2, i2, p2, f2⟩ := h2
  exact ⟨⟨u1 ++ u2, by rw [hu2, hu1, List.append_assoc]⟩,
    fun k hk => m2 k (m1 k hk), fun h => i2 (i1 h),
    fun h hpo => p2 (i1 h) (p1 h hpo), fun h => f2 (f1 h)⟩

theorem GoodStep.log_hasVal {d0 : PStore} {st : PullSt} {k : Key} {r : Bool} :
    GoodStep d0 st (st.log (.hasVal k r)) := by
  refine ⟨⟨[.hasVal k r], rfl⟩, fun _ h => h, ?_, ?_, ?_⟩
  · intro h
    show st.dest = applyEvents d0 (st.trace ++ [Event.hasVal k r])
    rw [applyEvents_append, ← h]
    rfl
  · intro _ hpo
    exact postOrder_snoc_nonput hpo (by intro _ _ _ h; cases h)
  · intro hfg
    exact fetchGuard_snoc_nonget hfg (by intro _ h; cases h)

end Polyepoxide
namespace Polyepoxide

/-- Logging the `source.get(value_key)` keeps a trace well disciplined,
provided the trace since the failed dest `has` check holds schema events
only — exactly the situation inside `pull_recursive`. -/
theorem GoodStep.log_getVal_after {d0 : PStore} {st st1 : PullSt} {vk : Key}
    (hext : ∃ tN, st1.trace = st.trace ++ Event.hasVal vk false :: tN ∧
      ∀ e ∈ tN, Event.isSch e = true)
    (hgood : GoodStep d0 st st1) :
    GoodStep d0 st (st1.log (.getVal vk)) := by
  obtain ⟨⟨u, hu⟩, m, i, p, f⟩ := hgood
  obtain ⟨tN, htN, hsch⟩ := hext
  refine ⟨⟨u ++ [Event.getVal vk], ?_⟩, m, ?_, ?_, ?_⟩
  · show st1.trace ++ [Event.getVal vk] = st.trace ++ (u ++ [Event.getVal vk])
    rw [hu, List.append_assoc]
  · intro h
    show st1.dest = applyEvents d0 (st1.trace ++ [Event.getVal vk])
    rw [applyEvents_append, ← i h]
    rfl
  · intro h hpo
    exact postOrder_snoc_nonput (p h hpo) (by intro _ _ _ hx; cases hx)
  · intro hfg
    exact fetchGuard_snoc_get (f hfg) ⟨st.trace, tN, htN, hsch⟩

/-- Writing the value blob after all its bond targets are in dest keeps
the trace well disciplined. -/
theorem GoodStep.write_putVal_after {d0 : PStore} {st st3 : PullSt} {vk : Key}
    {bytes : CborVal} {sch : Structure}
    (hgood : GoodStep d0 st st3)
    (hbonds : ∀ p ∈ Sync.collect_bonds bytes sch, st3.dest.hasKey p.1 = true) :
    GoodStep d0 st (st3.write vk bytes (.putVal vk bytes sch)) := by
  obtain ⟨⟨u, hu⟩, m, i, p, f⟩ := hgood
  refine ⟨⟨u ++ [Event.putVal vk bytes sch], ?_⟩,
    fun k hk => PStore.hasKey_put_mono vk bytes (m k hk), ?_, ?_, ?_⟩
  · show st3.trace ++ [Event.putVal vk bytes sch] =
      st.trace ++ (u ++ [Event.putVal vk bytes sch])
    rw [hu, List.append_assoc]
  · intro h
    show st3.dest.put vk bytes =
      applyEvents d0 (st3.trace ++ [Event.putVal vk bytes sch])
    rw [applyEvents_append, ← i h]
    rfl
  · intro h hpo
    refine postOrder_snoc_put (p h hpo) ?_
    intro q hq
    rw [← i h]
    exact hbonds q hq
  · intro hfg
    exact fetchGuard_snoc_nonget (f hfg) (by intro _ hx; cases hx)

end Polyepoxide
namespace Polyepoxide

/-- The master invariant of the pull recursion, proved for all four
functions at once by induction on fuel: every call is a disciplined
step, a successful `pull_recursive` leaves its value key in dest, a
successful `pull_list` leaves every listed target in dest, and the
schema-layer calls issue schema events only. -/
theorem pull_master (source d0 : PStore) : ∀ fuel : Nat,
    (∀ vk sk st out, pull_recursive source fuel vk sk st = out →
       GoodStep d0 st out.1 ∧ (out.2 = none → out.1.dest.hasKey vk = true)) ∧
    (∀ bonds st out, pull_list source fuel bonds st = out →
       GoodStep d0 st out.1 ∧
       (out.2 = none → ∀ p ∈ bonds, out.1.dest.hasKey p.1 = true)) ∧
    (∀ key st out, ensure_schema source fuel key st = out →
       SchStep d0 st out.1) ∧
    (∀ ks st out, ensure_list source fuel ks st = out →
       SchStep d0 st out.1) := by
  intro fuel
  induction fuel with
  | zero =>
    refine ⟨?_, ?_, ?_, ?_⟩
    · intro vk sk st out h
      rw [pull_recursive] at h
      subst h
      exact ⟨GoodStep.goodRefl d0 st, fun hc => by cases hc⟩
    · intro bonds st out h
      rw [pull_list] at h
      subst h
      exact ⟨GoodStep.goodRefl d0 st, fun hc => by cases hc⟩
    · intro key st out h
      rw [ensure_schema] at h
      subst h
      exact SchStep.schRefl d0 st
    · intro ks st out h
      rw [ensure_list] at h
      subst h
      exact SchStep.schRefl d0 st
  | succ fuel ih =>
    obtain ⟨ihP, ihL, ihS, ihE⟩ := ih
    refine ⟨?_, ?_, ?_, ?_⟩
    · -- pull_recursive
      intro vk sk st out h
      rw [pull_recursive] at h
      simp only [] at h
      cases hh : st.dest.hasKey vk with
      | true =>
        simp only [hh, if_true] at h
        subst h
        exact ⟨GoodStep.log_hasVal, fun _ => hh⟩
      | false =>
        simp only [hh, Bool.false_eq_true, if_false] at h
        rcases hE : ensure_schema source fuel sk (st.log (.hasVal vk false))
          with ⟨st1, res⟩
        cases res with
        | inl e =>
          simp only [hE] at h
          subst h
          refine ⟨GoodStep.goodTrans GoodStep.log_hasVal
            (SchStep.goodStep (by simpa using ihS sk _ _ hE)), fun hc => by cases hc⟩
        | inr cell =>
          simp only [hE] at h
          have hsch : SchStep d0 (st.log (.hasVal vk false)) st1 := by
            simpa using ihS sk _ _ hE
          have hshape : ∃ tN, st1.trace = st.trace ++ Event.hasVal vk false :: tN ∧
              ∀ e ∈ tN, Event.isSch e = true := by
            obtain ⟨tN, htN, hs⟩ := hsch.1
            exact ⟨tN, by simpa [PullSt.log] using htN, hs⟩
          have hg1 : GoodStep d0 st st1 :=
            GoodStep.goodTrans GoodStep.log_hasVal (SchStep.goodStep hsch)
          have hg2 : GoodStep d0 st (st1.log (.getVal vk)) :=
            GoodStep.log_getVal_after hshape hg1
          cases hG : source.get vk with
          | none =>
            simp only [hG] at h
            subst h
            exact ⟨hg2, fun hc => by cases hc⟩
          | some bytes =>
            simp only [hG] at h
            rcases hL : pull_list source fuel (Sync.collect_bonds bytes cell.2)
              (st1.log (.getVal vk)) with ⟨st3, err3⟩
            cases err3 with
            | some e =>
              simp only [hL] at h
              subst h
              exact ⟨GoodStep.goodTrans hg2 (ihL _ _ _ hL).1, fun hc => by cases hc⟩
            | none =>
              simp only [hL] at h
              subst h
              have hlg := ihL _ _ _ hL
              refine ⟨GoodStep.write_putVal_after
                (GoodStep.goodTrans hg2 hlg.1) (hlg.2 rfl), fun _ => ?_⟩
              exact PStore.hasKey_put_self _ _ _
    · -- pull_list
      intro bonds st out h
      cases bonds with
      | nil =>
        rw [pull_list] at h
        subst h
        exact ⟨GoodStep.goodRefl d0 st, fun _ p hp => absurd hp (List.not_mem_nil p)⟩
      | cons pr rest =>
        rw [pull_list] at h
        rcases hR : pull_recursive source fuel pr.1 pr.2 st with ⟨st1, e1⟩
        cases e1 with
        | some e =>
          simp only [hR] at h
          subst h
          exact ⟨(ihP _ _ _ _ hR).1, fun hc => by cases hc⟩
        | none =>
          simp only [hR] at h
          obtain ⟨g1, pr1⟩ := ihP _ _ _ _ hR
          obtain ⟨g2, pr2⟩ := ihL rest st1 out h
          refine ⟨GoodStep.goodTrans g1 g2, fun hc p hp => ?_⟩
          rcases List.mem_cons.1 hp with hp' | hp'
          · subst hp'
            exact g2.2.1 _ (pr1 rfl)
          · exact pr2 hc p hp'
    · -- ensure_schema
      intro key st out h
      rw [ensure_schema] at h
      cases hC : st.schemas.get key with
      | some c =>
        simp only [hC] at h
        subst h
        exact SchStep.schRefl d0 st
      | none =>
        simp only [hC] at h
        cases hdh : st.dest.hasKey key with
        | true =>
          simp only [hdh, if_true] at h
          cases hG : source.get key with
          | none =>
            simp only [hG] at h
            subst h
            exact SchStep.schTrans SchStep.log_hasSch SchStep.log_getSch
          | some bytes =>
            simp only [hG] at h
            have hpre : SchStep d0 st
                ((st.log (.hasSch key true)).log (.getSch key)) :=
              SchStep.schTrans SchStep.log_hasSch SchStep.log_getSch
            cases hP : parseS bytes with
            | none =>
              simp only [hP] at h
              subst h
              exact hpre
            | some schema =>
              simp only [hP] at h
              rcases hN : ensure_nested_schemas source fuel schema
                ((st.log (.hasSch key true)).log (.getSch key)) with ⟨st4, e4⟩
              cases e4 with
              | some e =>
                simp only [hN] at h
                rw [ensure_nested_schemas] at hN
                subst h
                exact SchStep.schTrans hpre (by simpa using ihE _ _ _ hN)
              | none =>
                simp only [hN] at h
                rw [ensure_nested_schemas] at hN
                subst h
                exact SchStep.schemas_only
                  (SchStep.schTrans hpre (by simpa using ihE _ _ _ hN))
        | false =>
          simp only [hdh, Bool.false_eq_true, if_false] at h
          cases hG : source.get key with
          | none =>
            simp only [hG] at h
            subst h
            exact SchStep.schTrans SchStep.log_hasSch SchStep.log_getSch
          | some bytes =>
            simp only [hG] at h
            have hpre : SchStep d0 st
                (((st.log (.hasSch key false)).log (.getSch key)).write key bytes
                  (.putSch key bytes)) :=
              SchStep.schTrans (SchStep.schTrans SchStep.log_hasSch SchStep.log_getSch)
                SchStep.write_putSch
            cases hP : parseS bytes with
            | none =>
              simp only [hP] at h
              subst h
              exact hpre
            | some schema =>
              simp only [hP] at h
              rcases hN : ensure_nested_schemas source fuel schema
                (((st.log (.hasSch key false)).log (.getSch key)).write key bytes
                  (.putSch key bytes)) with ⟨st4, e4⟩
              cases e4 with
              | some e =>
                simp only [hN] at h
                rw [ensure_nested_schemas] at hN
                subst h
                exact SchStep.schTrans hpre (by simpa using ihE _ _ _ hN)
              | none =>
                simp only [hN] at h
                rw [ensure_nested_schemas] at hN
                subst h
                exact SchStep.schemas_only
                  (SchStep.schTrans hpre (by simpa using ihE _ _ _ hN))
    · -- ensure_list
      intro ks st out h
      cases ks with
      | nil =>
        rw [ensure_list] at h
        subst h
        exact SchStep.schRefl d0 st
      | cons k rest =>
        rw [ensure_list] at h
        cases hS : (st.schemas.get k).isSome with
        | true =>
          simp only [hS, if_true] at h
          exact ihE rest st out h
        | false =>
          simp only [hS, Bool.false_eq_true, if_false] at h
          rcases hE2 : ensure_schema source fuel k st with ⟨st1, res⟩
          cases res with
          | inl e =>
            simp only [hE2] at h
            subst h
            simpa using ihS k st _ hE2
          | inr c =>
            simp only [hE2] at h
            exact SchStep.schTrans (by simpa using ihS k st _ hE2) (ihE rest st1 out h)

end Polyepoxide
namespace Polyepoxide

/-- A small source store for concrete pull runs: an empty-sequence value
blob whose schema is `Sequence(Unicode)`, with the `Unicode` schema blob
linked from the sequence schema. -/
def uniKey : Key := Structure.unicode.computeCid

def seqKey : Key := (Structure.sequence (.unresolved uniKey)).computeCid

def valKey1 : Key := hashCbor (CborVal.list [])

def syncSource : PStore :=
  ⟨[(valKey1, CborVal.list []),
    (seqKey, encodeS (Structure.sequence (.unresolved uniKey))),
    (uniKey, encodeS Structure.unicode)]⟩

/-- A destination that already holds both schema blobs. -/
def syncDest0 : PStore :=
  ⟨[(seqKey, encodeS (Structure.sequence (.unresolved uniKey))),
    (uniKey, encodeS Structure.unicode)]⟩

def seqSchemaResolved : Structure := .sequence (.resolved (some uniKey) .unicode)

/-- The fresh run's state just before the (empty) child loop: both
schema blobs written and interned, the value fetched. -/
def freshMid : PullSt :=
  ⟨⟨[(seqKey, encodeS (.sequence (.unresolved uniKey))), (uniKey, encodeS .unicode)]⟩,
   ⟨[(uniKey, .unicode), (seqKey, seqSchemaResolved)]⟩,
   [seqKey, uniKey],
   [.hasVal valKey1 false, .hasSch seqKey false, .getSch seqKey,
    .putSch seqKey (encodeS (.sequence (.unresolved uniKey))),
    .hasSch uniKey false, .getSch uniKey, .putSch uniKey (encodeS .unicode),
    .getVal valKey1]⟩

def freshFinal : PullSt :=
  freshMid.write valKey1 (.list []) (.putVal valKey1 (.list []) seqSchemaResolved)

/-- The pre-populated run's state just before the (empty) child loop:
dest already had the schema blobs, so nothing was written. -/
def destMid : PullSt :=
  ⟨syncDest0, ⟨[(uniKey, .unicode), (seqKey, seqSchemaResolved)]⟩, [],
   [.hasVal valKey1 false, .hasSch seqKey true, .getSch seqKey,
    .hasSch uniKey true, .getSch uniKey, .getVal valKey1]⟩

def destFinal : PullSt :=
  destMid.write valKey1 (.list []) (.putVal valKey1 (.list []) seqSchemaResolved)

theorem collect_bonds_nilList (b : Option Key) (s : Structure) :
    Sync.collect_bonds (CborVal.list []) (.sequence (.resolved b s)) = [] := by
  simp [Sync.collect_bonds.eq_def, Sync.collectSeq.eq_def]

unseal ensure_schema ensure_nested_schemas ensure_list in
/-- One fresh concrete run, fully evaluated. -/
theorem pull_fresh_run :
    pull 20 syncSource PStore.empty valKey1 seqKey = (freshFinal, none) := by
  have h3 : pull 20 syncSource PStore.empty valKey1 seqKey =
      (match pull_list syncSource 19
          (Sync.collect_bonds (CborVal.list [])
            (Structure.sequence (.resolved (some uniKey) .unicode))) freshMid with
       | (st3, some e) => (st3, some e)
       | (st3, none) =>
         (st3.write valKey1 (CborVal.list [])
           (.putVal valKey1 (CborVal.list [])
             (Structure.sequence (.resolved (some uniKey) .unicode))), none)) := rfl
  rw [h3, collect_bonds_nilList]
  rfl

unseal ensure_schema ensure_nested_schemas ensure_list in
/-- The same run against a destination already holding both schema
blobs, fully evaluated. -/
theorem pull_dest_run :
    pull 20 syncSource syncDest0 valKey1 seqKey = (destFinal, none) := by
  have h3 : pull 20 syncSource syncDest0 valKey1 seqKey =
      (match pull_list syncSource 19
          (Sync.collect_bonds (CborVal.list [])
            (Structure.sequence (.resolved (some uniKey) .unicode))) destMid with
       | (st3, some e) => (st3, some e)
       | (st3, none) =>
         (st3.write valKey1 (CborVal.list [])
           (.putVal valKey1 (CborVal.list [])
             (Structure.sequence (.resolved (some uniKey) .unicode))), none)) := rfl
  rw [h3, collect_bonds_nilList]
  rfl

/-- C1 counterexample: at the store-write boundary right after
`ensure_schema` puts the `Sequence(Unicode)` schema blob (the fourth
event of a successful fresh run), dest has `seqKey` but not its schema
child `uniKey`, which is reachable from the blob just written — schema
writes are parent-first, not children-first. -/
theorem pull_schema_write_order_counterexample :
    ((pull 20 syncSource PStore.empty valKey1 seqKey).2 = none) ∧
    ((pull 20 syncSource PStore.empty valKey1 seqKey).1.trace.take 4 =
      [Event.hasVal valKey1 false, Event.hasSch seqKey false, Event.getSch seqKey,
       Event.putSch seqKey (encodeS (Structure.sequence (.unresolved uniKey)))]) ∧
    ((applyEvents PStore.empty
        ((pull 20 syncSource PStore.empty valKey1 seqKey).1.trace.take 4)).hasKey
        seqKey = true) ∧
    (uniKey ∈ cborLinks (encodeS (Structure.sequence (.unresolved uniKey)))) ∧
    ((applyEvents PStore.empty
        ((pull 20 syncSource PStore.empty valKey1 seqKey).1.trace.take 4)).hasKey
        uniKey = false) := by
  refine ⟨?_, ?_, ?_, ?_, ?_⟩
  · rw [pull_fresh_run]
  · rw [pull_fresh_run]
    rfl
  · rw [pull_fresh_run]
    rfl
  · decide
  · rw [pull_fresh_run]
    rfl

/-- C1 (amended): value-blob writes do happen children-first: in every
run of `pull`, whenever the trace puts a value blob, every bond target
collected from that blob under its schema is already present in dest. -/
theorem pull_value_writes_post_order (fuel : Nat) (source dest : PStore)
    (vk sk : Key) :
    PostOrderOK dest (pull fuel source dest vk sk).1.trace :=
  ((pull_master source dest fuel).1 vk sk ⟨dest, SchemaSolvent.empty, [], []⟩
    (pull fuel source dest vk sk) rfl).1.2.2.2.1 rfl (postOrder_nil dest)

/-- C5: pull after a successful pull is a no-op: it succeeds, performs a
single dest `has` check which returns true, transfers nothing, and
writes nothing to dest. -/
theorem pull_idempotent (fuel fuel' : Nat) (source dest : PStore)
    (vk sk : Key) (st : PullSt)
    (h : pull fuel source dest vk sk = (st, none)) :
    pull (fuel' + 1) source st.dest vk sk =
      (⟨st.dest, SchemaSolvent.empty, [], [Event.hasVal vk true]⟩, none) := by
  have hm := ((pull_master source dest fuel).1 vk sk
    ⟨dest, SchemaSolvent.empty, [], []⟩ (st, none) h).2 rfl
  rw [pull, pull_recursive]
  simp only [hm, if_true]
  rfl

theorem pull_idempotent_witness :
    pull 1 syncSource freshFinal.dest valKey1 seqKey =
      (⟨freshFinal.dest, SchemaSolvent.empty, [], [Event.hasVal valKey1 true]⟩,
        none) :=
  pull_idempotent 20 0 syncSource PStore.empty valKey1 seqKey freshFinal
    pull_fresh_run

/-- C6 counterexample: a schema blob the destination already has is
still fetched from source: starting from a dest holding both schema
blobs, the run's third event is `source.get(seqKey)` although dest has
`seqKey` at that moment (the preceding `has` check even returned true).
`ensure_schema` uses `dest.has` only to decide whether to write, and
fetches from source unconditionally. -/
theorem pull_refetch_counterexample :
    ((pull 20 syncSource syncDest0 valKey1 seqKey).2 = none) ∧
    ((pull 20 syncSource syncDest0 valKey1 seqKey).1.trace.take 3 =
      [Event.hasVal valKey1 false, Event.hasSch seqKey true,
       Event.getSch seqKey]) ∧
    ((applyEvents syncDest0
        ((pull 20 syncSource syncDest0 valKey1 seqKey).1.trace.take 2)).hasKey
        seqKey = true) := by
  refine ⟨?_, ?_, ?_⟩
  · rw [pull_dest_run]
  · rw [pull_dest_run]
    rfl
  · rw [pull_dest_run]
    rfl

/-- C6 (amended): value-blob fetches are guarded: in every run of
`pull`, every `source.get` of a value key is preceded by a dest `has`
check for that key that returned false, with only schema-layer events
in between; schema-blob fetches are not guarded this way. -/
theorem pull_value_fetch_guarded (fuel : Nat) (source dest : PStore)
    (vk sk : Key) :
    FetchGuardOK (pull fuel source dest vk sk).1.trace :=
  ((pull_master source dest fuel).1 vk sk ⟨dest, SchemaSolvent.empty, [], []⟩
    (pull fuel source dest vk sk) rfl).1.2.2.2.2 fetchGuard_nil

end Polyepoxide
